import Mathlib

/-!
# Verification of the PSP (pigment sequencing problem) solver core

This file gives a shallow embedding of the data model and the
clustering-based compression of the PSP repository, together with the
demand generator, the instance loading layer and the output stage of the
solve pipeline, and proves or refutes the specified properties.

Machine integers (Rust `usize` / `isize`) are modelled as `Nat` / `Int`;
the `usize::MAX` initialisation value of the min-folds is modelled as
`2 ^ 64 - 1`, and the theorems about those folds assume all cost values
fit in a `usize` (which they do in Rust by construction).  Fallible code
(vector indexing that may panic, `Option::unwrap`) is modelled with
`Option`, `none` standing for a panic.
-/

/-- Rust `usize::MAX`, the initial accumulator of the min-folds in
`compute_meta_stocking` and `compute_meta_changeover`. -/
def usizeMax : ℕ := 2 ^ 64 - 1

/-- The `IDLE` marker from `model.rs` (re-exported and used by
`compression.rs`): decision / predecessor value `-1`. -/
def IDLE : ℤ := -1

/-- A raw PSP instance record, field for field the `PspInstance` struct of
`instance.rs`. -/
structure PspInstance where
  nb_types : ℕ
  nb_periods : ℕ
  stocking : List ℕ
  changeover : List (List ℕ)
  demands : List (List ℕ)
deriving DecidableEq

/-- The `Psp` problem struct (declared in the missing `model.rs`, built in
`solve.rs` lines 137-145 and `compression.rs` lines 51-59): the instance
data plus the two derived demand indices. -/
structure Psp where
  n_items : ℕ
  horizon : ℕ
  stocking : List ℕ
  changeover : List (List ℕ)
  demands : List (List ℕ)
  prev_demands : List (List ℤ)
  rem_demands : List (List ℕ)
deriving DecidableEq

/-- A search state (declared in the missing `model.rs`, spec section 3):
current period, last produced item (or `IDLE`), and one progress pointer
per item into that item's unmet-demand sequence. -/
structure PspState where
  time : ℕ
  next : ℤ
  prev_demands : List ℤ
deriving DecidableEq

/-- Modelled from the spec: the "previous-demand pointer" of the
`DerivedDemandIndex` (`Psp::compute_prev_demands` lives in the missing
`model.rs`): the latest period `p ≤ t` at which the row has a demand,
or `-1` when there is none. -/
def prevDemandAt (row : List ℕ) (t : ℕ) : ℤ :=
  ((List.range (t + 1)).reverse.find? (fun p => decide (0 < row.getD p 0))).elim
    (-1) Int.ofNat

/-- Modelled from the spec: `Psp::compute_prev_demands` of the missing
`model.rs` — for each item and period, the previous-demand pointer. -/
def computePrevDemands (demands : List (List ℕ)) : List (List ℤ) :=
  demands.map (fun row => (List.range row.length).map (fun t => prevDemandAt row t))

/-- Modelled from the spec: the "remaining count" of the
`DerivedDemandIndex` (`Psp::compute_rem_demands` lives in the missing
`model.rs`): for each item and period `t`, the count of demand units at
periods `≥ t`. -/
def computeRemDemands (demands : List (List ℕ)) : List (List ℕ) :=
  demands.map (fun row => (List.range row.length).map (fun t => (row.drop t).sum))

/-- Building the `Psp` problem from a loaded instance, as done in
`Solve::solve` (`solve.rs` lines 134-145). -/
def mkPsp (inst : PspInstance) : Psp :=
  { n_items := inst.nb_types
    horizon := inst.nb_periods
    stocking := inst.stocking
    changeover := inst.changeover
    demands := inst.demands
    prev_demands := computePrevDemands inst.demands
    rem_demands := computeRemDemands inst.demands }

/-- The backward sweep of `compute_meta_demands` (`compression.rs` lines
80-93) over the list of per-period aggregated member demand counts: the
head of the list is the earliest period, and the Rust loop runs from the
last period down to the first, so the recursion processes the tail
(later periods) before the head.  Returns the emitted 0/1 meta-demand
row together with the leftover buffered units `cur`. -/
def sweepAux : List ℕ → List ℕ × ℕ
  | [] => ([], 0)
  | c :: rest =>
    let p := sweepAux rest
    let cur := p.2 + c
    if 0 < cur then (1 :: p.1, cur - 1) else (0 :: p.1, 0)

/-- The aggregated member demand count of meta-item `i` at period `t`:
the inner `for j` loop of `compute_meta_demands` (`compression.rs` lines
83-87). -/
def memberDemandAt (psp : Psp) (membership : List ℕ) (i t : ℕ) : ℕ :=
  (List.range psp.n_items).foldl
    (fun c j =>
      if membership.getD j 0 = i ∧ 0 < (psp.demands.getD j []).getD t 0 then
        c + (psp.demands.getD j []).getD t 0
      else c)
    0

/-- `PspCompression::compute_meta_demands` (`compression.rs` lines 77-97). -/
def computeMetaDemands (psp : Psp) (membership : List ℕ) (n_meta_items : ℕ) :
    List (List ℕ) :=
  (List.range n_meta_items).map
    (fun i => (sweepAux ((List.range psp.horizon).map (memberDemandAt psp membership i))).1)

/-- One step of the min-scatter fold shared by `compute_meta_stocking` and
`compute_meta_changeover`: `acc[j] = min(acc[j], v)`. -/
def scatterMin (pairs : List (ℕ × ℕ)) (init : List ℕ) : List ℕ :=
  pairs.foldl (fun acc p => acc.set p.1 (min (acc.getD p.1 0) p.2)) init

/-- `PspCompression::compute_meta_stocking` (`compression.rs` lines
99-107): fold `meta[j] = min(meta[j], stocking[i])` over the membership
vector, starting from `usize::MAX`. -/
def computeMetaStocking (psp : Psp) (membership : List ℕ) (n_meta_items : ℕ) :
    List ℕ :=
  scatterMin
    ((List.range membership.length).map
      (fun i => (membership.getD i 0, psp.stocking.getD i 0)))
    (List.replicate n_meta_items usizeMax)

/-- The list of ordered index pairs `(i, j)` visited by the nested loops of
`compute_meta_changeover` (`compression.rs` lines 112-118). -/
def indexPairs (n : ℕ) : List (ℕ × ℕ) :=
  (List.range n).flatMap (fun i => (List.range n).map (fun j => (i, j)))

/-- `PspCompression::compute_meta_changeover` (`compression.rs` lines
109-125): min-fold `meta[a][b] = min(meta[a][b], changeover[i][j])` over
all pairs with `membership[i] ≠ membership[j]`, starting from
`usize::MAX`, then the diagonal is zeroed. -/
def computeMetaChangeover (psp : Psp) (membership : List ℕ) (n_meta_items : ℕ) :
    List (List ℕ) :=
  let scattered :=
    (indexPairs membership.length).foldl
      (fun acc p =>
        let a := membership.getD p.1 0
        let b := membership.getD p.2 0
        if a ≠ b then
          acc.set a ((acc.getD a []).set b
            (min ((acc.getD a []).getD b 0)
              ((psp.changeover.getD p.1 []).getD p.2 0)))
        else acc)
      (List.replicate n_meta_items (List.replicate n_meta_items usizeMax))
  (List.range n_meta_items).foldl
    (fun acc i => acc.set i ((acc.getD i []).set i 0)) scattered

/-- One iteration of the loop of `compute_rem_demand_to_prev_demand`
(`compression.rs` lines 131-135): when the previous-demand pointer at
the current period is `≥ 0`, write it at index
`rem_demands[i][prev]`; an out-of-bounds write is a Rust panic,
modelled by `none`. -/
def rdtpdStep (remRow : List ℕ) (acc : Option (List ℤ)) (prev : ℤ) :
    Option (List ℤ) :=
  acc.bind (fun v =>
    if 0 ≤ prev then
      let idx := remRow.getD prev.toNat 0
      if idx < v.length then some (v.set idx prev) else none
    else some v)

/-- One row of `PspCompression::compute_rem_demand_to_prev_demand`
(`compression.rs` lines 127-139): start from `vec![-1; horizon]` and
fold `rdtpdStep` over the previous-demand row. -/
def rdtpdRow (horizon : ℕ) (prevRow : List ℤ) (remRow : List ℕ) :
    Option (List ℤ) :=
  prevRow.foldl (rdtpdStep remRow) (some (List.replicate horizon (-1)))

/-- `PspCompression::compute_rem_demand_to_prev_demand` (`compression.rs`
lines 127-139), one `rdtpdRow` per meta-item. -/
def computeRemDemandToPrevDemand (meta : Psp) : Option (List (List ℤ)) :=
  (List.range meta.n_items).mapM
    (fun i => rdtpdRow meta.horizon (meta.prev_demands.getD i [])
      (meta.rem_demands.getD i []))

/-- The `PspCompression` struct (`compression.rs` lines 27-32).  The
membership is kept as the raw clustering output vector; the hash map of
lines 63-67 (items to meta-items plus `IDLE ↦ IDLE`) is recovered by
`membershipLookup`. -/
structure PspCompression where
  problem : Psp
  meta_problem : Psp
  membership : List ℕ
  rem_demand_to_prev_demand : List (List ℤ)
deriving DecidableEq

/-- Lookup in the membership hash map built in `compression.rs` lines
63-67: keys are `0 .. n-1` (mapping to the clustering membership) and
`IDLE` (mapping to `IDLE`); any other key makes `get(..).unwrap()`
panic (`none`). -/
def membershipLookup (membership : List ℕ) (x : ℤ) : Option ℤ :=
  if x = IDLE then some IDLE
  else if 0 ≤ x ∧ x.toNat < membership.length then
    some (Int.ofNat (membership.getD x.toNat 0))
  else none

/-- `PspCompression::new` (`compression.rs` lines 35-75).  The call to the
external `clustering` crate (`kmeans(n_meta_items, Some(0), &elems,
1000)`, line 43) is not part of this repository; its output membership
vector is taken as an argument.  `none` models a panic inside
`compute_rem_demand_to_prev_demand`. -/
def PspCompression.new (problem : Psp) (membership : List ℕ)
    (n_meta_items : ℕ) : Option PspCompression :=
  let stocking := computeMetaStocking problem membership n_meta_items
  let changeover := computeMetaChangeover problem membership n_meta_items
  let demands := computeMetaDemands problem membership n_meta_items
  let prev_demands := computePrevDemands demands
  let rem_demands := computeRemDemands demands
  let meta_problem : Psp :=
    { n_items := n_meta_items
      horizon := problem.horizon
      stocking := stocking
      changeover := changeover
      demands := demands
      prev_demands := prev_demands
      rem_demands := rem_demands }
  (computeRemDemandToPrevDemand meta_problem).map
    (fun r =>
      { problem := problem
        meta_problem := meta_problem
        membership := membership
        rem_demand_to_prev_demand := r })

/-- The feature vector of an item, per the `Elem` impl for `Item`
(`compression.rs` lines 13-25): the item's changeover row followed by
its stocking cost. -/
def itemFeatures (psp : Psp) : List (List ℕ) :=
  (List.range psp.n_items).map
    (fun id => (List.range psp.n_items).map
      (fun i => (psp.changeover.getD id []).getD i 0) ++ [psp.stocking.getD id 0])

/-- The type of the external `kmeans` function of the `clustering` crate:
number of clusters, optional seed, feature vectors, iteration cap, and
the resulting membership vector. -/
def KmeansFn : Type := ℕ → Option ℕ → List (List ℕ) → ℕ → List ℕ

/-- `PspCompression::new` including the clustering call of
`compression.rs` line 43, parametrised by the external `kmeans`
implementation: the seed is the fixed `Some(0)` and the iteration cap
the fixed `1000`. -/
def PspCompression.newWithKmeans (kmeansImpl : KmeansFn) (problem : Psp)
    (n_meta_items : ℕ) : Option PspCompression :=
  PspCompression.new problem
    (kmeansImpl n_meta_items (some 0) (itemFeatures problem) 1000) n_meta_items

/-- The aggregated remaining-demand counts computed by the first loop of
`PspCompression::compress` (`compression.rs` lines 150-156): for every
item with a non-negative pointer, add `problem.rem_demands[i][ptr]` to
the count of its meta-item.  `none` models an index panic or a failed
`unwrap` of the membership lookup. -/
def PspCompression.metaRemCounts (c : PspCompression) (state : PspState) :
    Option (List ℕ) :=
  (List.range state.prev_demands.length).foldlM
    (fun (acc : List ℕ) i =>
      let prev := state.prev_demands.getD i 0
      if 0 ≤ prev then
        (membershipLookup c.membership (Int.ofNat i)).bind (fun j =>
          if j.toNat < acc.length then
            if i < c.problem.rem_demands.length then
              if prev.toNat < (c.problem.rem_demands.getD i []).length then
                some (acc.set j.toNat
                  (acc.getD j.toNat 0 + (c.problem.rem_demands.getD i []).getD prev.toNat 0))
              else none
            else none
          else none)
      else some acc)
    (List.replicate c.meta_problem.n_items 0)

/-- `PspCompression::compress` (`compression.rs` lines 149-168): aggregate
the remaining counts, translate each back to a pointer through the
reverse-count index (`rem_demand_to_prev_demand[i][r]`, a panic when
`r` is out of bounds), and map the predecessor through the membership
map. -/
def PspCompression.compress (c : PspCompression) (state : PspState) :
    Option PspState :=
  (c.metaRemCounts state).bind (fun rem =>
    ((List.range rem.length).mapM (fun i =>
      let r := rem.getD i 0
      if r < (c.rem_demand_to_prev_demand.getD i []).length then
        some ((c.rem_demand_to_prev_demand.getD i []).getD r 0)
      else none)).bind (fun prev_demands =>
    (if state.next = IDLE then some IDLE
     else membershipLookup c.membership state.next).map (fun next =>
    { time := state.time
      next := next
      prev_demands := prev_demands })))

/-- Modelled from the spec: the earliest open demand of an item from
period `t` on (spec sections 3 and 4.1; the search model lives in the
missing `model.rs`): the least period `p ≥ t` with a demand, or `-1`. -/
def earliestDemand (row : List ℕ) (t : ℕ) : ℤ :=
  ((List.range row.length).find? (fun p => decide (t ≤ p) && decide (0 < row.getD p 0))).elim
    (-1) Int.ofNat

/-- Modelled from the spec: `initialState()` of the missing `model.rs`
(spec section 4.1): period `0`, idle predecessor, every item pointing at
its first open demand. -/
def initialState (p : Psp) : PspState :=
  { time := 0
    next := IDLE
    prev_demands :=
      (List.range p.n_items).map (fun i => earliestDemand (p.demands.getD i []) 0) }

/-- Modelled from the spec: `transition(state, decision)` of the missing
`model.rs` (spec section 4.1): the period advances by one, the
predecessor becomes the decision, and when producing an item its
pointer advances to the next open demand. -/
def transition (p : Psp) (s : PspState) (d : ℤ) : PspState :=
  { time := s.time + 1
    next := d
    prev_demands :=
      if d = IDLE then s.prev_demands
      else s.prev_demands.set d.toNat
        (earliestDemand (p.demands.getD d.toNat [])
          ((s.prev_demands.getD d.toNat (-1)).toNat + 1)) }

/-- Modelled from the spec: the number of open demand units of a state
with deadline at most `u` — for each item with a live pointer, the units
of its row in the window `[ptr, u]`. -/
def openUnits (p : Psp) (s : PspState) (u : ℕ) : ℕ :=
  ((List.range p.n_items).map (fun i =>
    let ptr := s.prev_demands.getD i (-1)
    if 0 ≤ ptr then (((p.demands.getD i []).take (u + 1)).drop ptr.toNat).sum
    else 0)).sum

/-- Modelled from the spec: deadline-reachability of every open demand
from a state (spec section 4.1, the feasibility guarantee of
`domain()`): for every period `u`, the open units with deadline `≤ u`
fit in the production slots `[time, u]`. -/
def feasibleFrom (p : Psp) (s : PspState) : Bool :=
  (List.range p.horizon).all (fun u => openUnits p s u ≤ u + 1 - s.time)

/-- Modelled from the spec: `domain(state)` of the missing `model.rs`
(spec section 4.1): at a non-terminal state, the idle decision and every
item with an open demand, restricted to decisions after which every
item's open demands remain reachable in the remaining periods (the
spec's completeness guarantee: no path may reach an incomplete terminal
state). -/
def domain (p : Psp) (s : PspState) : List ℤ :=
  if s.time < p.horizon then
    (IDLE :: (List.range p.n_items).map Int.ofNat).filter (fun d =>
      (d = IDLE || 0 ≤ s.prev_demands.getD d.toNat (-1)) &&
      feasibleFrom p (transition p s d))
  else []

/-- Modelled from the spec: the states reachable from the initial state
through `domain`-admissible transitions. -/
inductive Reachable (p : Psp) : PspState → Prop where
  | init : Reachable p (initialState p)
  | step {s : PspState} {d : ℤ} (hs : Reachable p s) (hd : d ∈ domain p s) :
      Reachable p (transition p s d)

/-- Modelled from the spec: a complete state — every item's progress
pointer fully advanced (spec section 4.1, `isTerminal`). -/
def complete (s : PspState) : Bool :=
  s.prev_demands.all (fun ptr => ptr = IDLE)

/-- Modelled from the spec: breadth-first expansion of all
`domain`-admissible decision sequences, one layer per call. -/
def extendSeqs (p : Psp) : ℕ → List (PspState × List ℤ) → List (PspState × List ℤ)
  | 0, acc => acc
  | fuel + 1, acc =>
    extendSeqs p fuel
      (acc.flatMap (fun sd => (domain p sd.1).map
        (fun d => (transition p sd.1 d, sd.2 ++ [d]))))

/-- Modelled from the spec: the complete decision sequences found by the
external search engine — all `domain`-admissible sequences of length
`horizon` whose final state has every demand satisfied.  The engine
returns its `Completion` with `best_value = None` and
`best_solution() = None` exactly when this list is empty. -/
def engineSolutions (p : Psp) : List (List ℤ) :=
  ((extendSeqs p p.horizon [(initialState p, [])]).filter
    (fun sd => complete sd.1)).map (fun sd => sd.2)

/-- Rust `isize::MAX`, the explicit "no feasible solution" sentinel of
`solve.rs` line 174. -/
def isizeMax : ℤ := 2 ^ 63 - 1

/-- The printed result record of `Solve::solve` (`solve.rs` lines
181-189). -/
structure SolveReport where
  best_value : ℤ
  solution : List ℤ
deriving DecidableEq

/-- The output stage of `Solve::solve` (`solve.rs` lines 170-189): the
engine's completion value is negated with `isize::MAX` as the
no-solution sentinel (line 174), but the solution string is built from
`solver.best_solution().unwrap()` (line 177), which panics (`none`)
when the engine found no solution. -/
def solveReport (best_value : Option ℤ) (best_solution : Option (List ℤ)) :
    Option SolveReport :=
  match best_solution with
  | none => none
  | some sol => some { best_value := (best_value.map (fun v => -v)).getD isizeMax
                       solution := sol }

/-- A JSON value, as far as the serde-derived loading of `PspInstance`
(`instance.rs`, used at `solve.rs` line 132) observes it. -/
inductive Json where
  | null : Json
  | bool (b : Bool) : Json
  | num (n : ℤ) : Json
  | str (s : String) : Json
  | arr (l : List Json) : Json
  | obj (l : List (String × Json)) : Json

/-- Field lookup in a JSON object. -/
def Json.getField (j : Json) (name : String) : Option Json :=
  match j with
  | .obj l => (l.find? (fun f => f.1 = name)).map (fun f => f.2)
  | _ => none

/-- Decoding a `usize` field the way serde does: a non-negative integer
that fits in 64 bits. -/
def decodeUsize (j : Json) : Option ℕ :=
  match j with
  | .num n => if 0 ≤ n ∧ n < 2 ^ 64 then some n.toNat else none
  | _ => none

/-- Decoding a `Vec<usize>` field the way serde does. -/
def decodeVecUsize (j : Json) : Option (List ℕ) :=
  match j with
  | .arr l => l.mapM decodeUsize
  | _ => none

/-- Decoding a `Vec<Vec<usize>>` field the way serde does. -/
def decodeMatUsize (j : Json) : Option (List (List ℕ)) :=
  match j with
  | .arr l => l.mapM decodeVecUsize
  | _ => none

/-- The serde-derived deserialisation of `PspInstance` (`instance.rs`
lines 5-12): the five fields are extracted and decoded; nothing else —
in particular no dimension — is checked. -/
def PspInstance.fromJson (j : Json) : Option PspInstance := do
  let nb_types ← (j.getField "nb_types").bind decodeUsize
  let nb_periods ← (j.getField "nb_periods").bind decodeUsize
  let stocking ← (j.getField "stocking").bind decodeVecUsize
  let changeover ← (j.getField "changeover").bind decodeMatUsize
  let demands ← (j.getField "demands").bind decodeMatUsize
  pure { nb_types := nb_types, nb_periods := nb_periods, stocking := stocking,
         changeover := changeover, demands := demands }

/-- The serde-derived serialisation of `PspInstance` (`instance.rs` lines
5-12), used by the generator. -/
def PspInstance.toJson (inst : PspInstance) : Json :=
  .obj [("nb_types", .num inst.nb_types),
        ("nb_periods", .num inst.nb_periods),
        ("stocking", .arr (inst.stocking.map (fun x : ℕ => .num x))),
        ("changeover", .arr (inst.changeover.map
          (fun row => .arr (row.map (fun x : ℕ => .num x))))),
        ("demands", .arr (inst.demands.map
          (fun row => .arr (row.map (fun x : ℕ => .num x)))))]

/-- The state of the generator's demand-placement loop
(`PspGenerator::generate_demands` and `PspFeasibility`, `generate.rs`
lines 146-198): the demand matrix, the set of still-available
production slots, and the number of demands placed. -/
structure GenState where
  demands : List (List ℕ)
  available : Finset ℕ
  count : ℕ

/-- The initial generator state (`generate.rs` lines 147-151 and
184-188): an all-zero `nb_types × nb_periods` matrix and all periods
available. -/
def genInit (nb_types nb_periods : ℕ) : GenState :=
  { demands := List.replicate nb_types (List.replicate nb_periods 0)
    available := Finset.range nb_periods
    count := 0 }

/-- One iteration of the placement loop (`generate.rs` lines 155-164),
with the two uniform draws modelled by arbitrary naturals `r1` (the
period, shifted into `[min, nb_periods)`) and `r2` (the type): place a
demand if the cell is free and consume the largest available slot `≤ p`
(`PspFeasibility::remove`, lines 194-197).  `none` models the panics of
`Uniform::new` on an empty range and of the two `unwrap`s on an empty
set. -/
def genStep (nb_types nb_periods : ℕ) (g : GenState) (r1 r2 : ℕ) :
    Option GenState :=
  if h : g.available.Nonempty then
    let m := g.available.min' h
    if m < nb_periods then
      let p := m + r1 % (nb_periods - m)
      if 0 < nb_types then
        let t := r2 % nb_types
        if (g.demands.getD t []).getD p 0 = 0 then
          match (g.available.filter (fun a => a ≤ p)).max with
          | ⊥ => none
          | (s : ℕ) =>
            some { demands := g.demands.set t ((g.demands.getD t []).set p 1)
                   available := g.available.erase s
                   count := g.count + 1 }
        else some g
      else none
    else none
  else none

/-- The placement loop run on a list of random draws (`generate.rs` lines
155-164); the Rust loop stops once `count` reaches the target, which
corresponds to a particular draw list. -/
def genRun (nb_types nb_periods : ℕ) (draws : List (ℕ × ℕ)) :
    Option GenState :=
  draws.foldlM (fun g r => genStep nb_types nb_periods g r.1 r.2)
    (genInit nb_types nb_periods)

/-- The total number of demand units at periods `≤ u` over all items of a
demand matrix. -/
def unitsUpTo (demands : List (List ℕ)) (u : ℕ) : ℕ :=
  (demands.map (fun row => (row.take (u + 1)).sum)).sum

/-- A 0/1 matrix predicate. -/
def zeroOne (demands : List (List ℕ)) : Bool :=
  demands.all (fun row => row.all (fun x => x ≤ 1))

/-- Deadline feasibility of a demand matrix (the property maintained by
`PspFeasibility`): at every period `u`, the units due by `u` fit in the
`u + 1` production slots up to `u`. -/
def deadlineFeasible (demands : List (List ℕ)) : Bool :=
  (List.range ((demands.map List.length).foldr max 0)).all
    (fun u => unitsUpTo demands u ≤ u + 1)

/-- The member items of cluster `a` under a clustering membership. -/
def clusterItems (n : ℕ) (membership : List ℕ) (a : ℕ) : List ℕ :=
  (List.range n).filter (fun j => membership.getD j 0 = a)

/-- The demand units of the members of cluster `a` at periods `≥ t`. -/
def clusterUnits (p : Psp) (membership : List ℕ) (a t : ℕ) : ℕ :=
  ((clusterItems p.n_items membership a).map
    (fun j => ((p.demands.getD j []).drop t).sum)).sum

/-- The total number of demand units of a demand matrix. -/
def totalUnits (demands : List (List ℕ)) : ℕ :=
  (demands.map List.sum).sum

/-- The per-period aggregated member demand of meta-item `i`: the input
of the backward sweep of `compute_meta_demands`. -/
def metaInput (p : Psp) (membership : List ℕ) (i : ℕ) : List ℕ :=
  (List.range p.horizon).map (memberDemandAt p membership i)

/-- The stocking costs of the members of cluster `a`. -/
def memberStockings (p : Psp) (membership : List ℕ) (a : ℕ) : List ℕ :=
  (clusterItems p.n_items membership a).map (fun i => p.stocking.getD i 0)

/-- The changeover costs over all cross-member pairs of two clusters. -/
def crossCosts (p : Psp) (membership : List ℕ) (a b : ℕ) : List ℕ :=
  ((indexPairs p.n_items).filter
    (fun q => membership.getD q.1 0 = a ∧ membership.getD q.2 0 = b)).map
    (fun q => (p.changeover.getD q.1 []).getD q.2 0)

/-- The matrix-cell min-scatter step of `compute_meta_changeover`:
`acc[a][b] = min(acc[a][b], v)` for a pair `((a, b), v)`. -/
def scatter2Step (acc : List (List ℕ)) (q : (ℕ × ℕ) × ℕ) : List (List ℕ) :=
  acc.set q.1.1 ((acc.getD q.1.1 []).set q.1.2
    (min ((acc.getD q.1.1 []).getD q.1.2 0) q.2))

/-- The slot-accumulation step of the first loop of
`PspCompression::compress`: `acc[a] = acc[a] + v` for a pair `(a, v)`. -/
def scatterAdd (pairs : List (ℕ × ℕ)) (init : List ℕ) : List ℕ :=
  pairs.foldl (fun acc q => acc.set q.1 (acc.getD q.1 0 + q.2)) init

/-- Concrete instance A (2 items, horizon 3, one demand each, all demands
in one cluster): feasible, total demand 2 ≤ 3. -/
def exA : PspInstance := ⟨2, 3, [0, 0], [[0, 0], [0, 0]], [[1, 0, 0], [0, 1, 0]]⟩

/-- Concrete instance B (2 items, horizon 2, one demand each, all in one
cluster): feasible, total demand 2 = horizon. -/
def exB : PspInstance := ⟨2, 2, [0, 0], [[0, 0], [0, 0]], [[1, 0], [0, 1]]⟩

/-- Concrete instance C (2 items, horizon 3, both demanding period 0):
total demand 2 ≤ 3 but deadline-infeasible. -/
def exC : PspInstance := ⟨2, 3, [0, 0], [[0, 0], [0, 0]], [[1, 0, 0], [1, 0, 0]]⟩

/-- Concrete instance for the k = n round trip counterexample: item 0
demands every period. -/
def ex7 : PspInstance := ⟨2, 2, [0, 0], [[0, 0], [0, 0]], [[1, 1], [0, 0]]⟩

/-- Spec scenario B: 2 items, 1 period, both demanding the single
period — an infeasible instance. -/
def scB : PspInstance := ⟨2, 1, [1, 1], [[0, 0], [0, 0]], [[1], [1]]⟩

/-- A small well-behaved instance (2 items, horizon 3, staggered
demands) used for witnesses. -/
def exW : PspInstance := ⟨2, 3, [5, 7], [[0, 3], [4, 0]], [[1, 0, 0], [0, 1, 0]]⟩

/-- The invariant maintained by the generator's placement loop
(`generate.rs` lines 146-198): the matrix keeps its
`nb_types × nb_periods` shape with 0/1 entries, and at every period `u`
the placed units due by `u` together with the still-available slots
`≤ u` fit in the `u + 1` production slots up to `u`. -/
def genInv (T P : ℕ) (g : GenState) : Prop :=
  g.demands.length = T ∧
  (∀ row ∈ g.demands, row.length = P) ∧
  (∀ row ∈ g.demands, ∀ x ∈ row, x ≤ 1) ∧
  ∀ u : ℕ, unitsUpTo g.demands u +
    (g.available.filter (fun a => a ≤ u)).card ≤ u + 1

/-! ## Lemmas about the backward sweep of `compute_meta_demands` -/

theorem sweepAux_cons (c : ℕ) (rest : List ℕ) :
    sweepAux (c :: rest) =
      if 0 < (sweepAux rest).2 + c then
        (1 :: (sweepAux rest).1, (sweepAux rest).2 + c - 1)
      else (0 :: (sweepAux rest).1, 0) := rfl

theorem sweepAux_length (l : List ℕ) : (sweepAux l).1.length = l.length := by
  induction l with
  | nil => rfl
  | cons c rest ih => rw [sweepAux_cons]; split <;> simp [ih]

/-- The emitted units plus the leftover buffered units account for every
member demand unit. -/
theorem sweepAux_sum_add (l : List ℕ) :
    (sweepAux l).1.sum + (sweepAux l).2 = l.sum := by
  induction l with
  | nil => rfl
  | cons c rest ih =>
    rw [sweepAux_cons]
    split <;> simp only [List.sum_cons] <;> omega

/-- The sweep emits only 0/1 values. -/
theorem sweepAux_mem (l : List ℕ) : ∀ x ∈ (sweepAux l).1, x ≤ 1 := by
  induction l with
  | nil => simp [sweepAux]
  | cons c rest ih =>
    rw [sweepAux_cons]
    split <;> intro x hx <;> rcases List.mem_cons.1 hx with h | h
    · omega
    · exact ih x h
    · omega
    · exact ih x h

/-- The emitted count satisfies the claimed min-recurrence. -/
theorem sweepAux_sum_cons (c : ℕ) (rest : List ℕ) :
    (sweepAux (c :: rest)).1.sum = min (c + rest.sum) (1 + (sweepAux rest).1.sum) := by
  have h := sweepAux_sum_add rest
  rw [sweepAux_cons]
  split <;> simp only [List.sum_cons] <;> omega

/-- The sweep commutes with taking period suffixes. -/
theorem sweepAux_drop (l : List ℕ) : ∀ t : ℕ,
    (sweepAux l).1.drop t = (sweepAux (l.drop t)).1 := by
  induction l with
  | nil => intro t; simp [sweepAux]
  | cons c rest ih =>
    intro t
    cases t with
    | zero => simp
    | succ t => rw [sweepAux_cons]; split <;> simpa using ih t

/-- When every period prefix of the member demands fits in the available
slots up to `b` spare units, at most `b` units are left unemitted. -/
theorem sweepAux_leftover_le (l : List ℕ) :
    ∀ b : ℕ, (∀ m, m ≤ l.length → (l.take m).sum ≤ m + b) → (sweepAux l).2 ≤ b := by
  induction l with
  | nil => intro b _; simp [sweepAux]
  | cons c rest ih =>
    intro b h
    have hc : c ≤ 1 + b := by simpa using h 1 (by simp)
    have hr : (sweepAux rest).2 ≤ b + 1 - c := by
      apply ih
      intro m hm
      have := h (m + 1) (by simpa using hm)
      simp only [List.take_succ_cons, List.sum_cons] at this
      omega
    rw [sweepAux_cons]
    split <;> simp only <;> omega

/-! ## Aggregated member demands -/

theorem foldl_add_ite (P : ℕ → Prop) [DecidablePred P] (f : ℕ → ℕ) (l : List ℕ) :
    ∀ a : ℕ, l.foldl (fun c j => if P j ∧ 0 < f j then c + f j else c) a =
      a + ((l.filter (fun j => decide (P j))).map f).sum := by
  induction l with
  | nil => intro a; simp
  | cons x xs ih =>
    intro a
    rw [List.foldl_cons]
    by_cases hP : P x
    · by_cases hf : 0 < f x
      · rw [if_pos ⟨hP, hf⟩, ih, List.filter_cons, if_pos (by simpa using hP),
          List.map_cons, List.sum_cons]
        omega
      · rw [if_neg (fun hx => hf hx.2), ih, List.filter_cons,
          if_pos (by simpa using hP), List.map_cons, List.sum_cons]
        omega
    · rw [if_neg (fun hx => hP hx.1), ih, List.filter_cons,
        if_neg (by simpa using hP)]

theorem memberDemandAt_eq (p : Psp) (membership : List ℕ) (i t : ℕ) :
    memberDemandAt p membership i t =
      ((clusterItems p.n_items membership i).map
        (fun j => (p.demands.getD j []).getD t 0)).sum := by
  unfold memberDemandAt clusterItems
  rw [foldl_add_ite (fun j => membership.getD j 0 = i)
    (fun j => (p.demands.getD j []).getD t 0)]
  simp

theorem drop_sum_eq (row : List ℕ) (t : ℕ) :
    (row.drop t).sum = row.getD t 0 + (row.drop (t + 1)).sum := by
  by_cases h : t < row.length
  · rw [List.drop_eq_getElem_cons h, List.sum_cons, List.getD_eq_getElem _ _ h]
  · rw [List.drop_eq_nil_of_le (by omega), List.drop_eq_nil_of_le (by omega),
      List.getD_eq_default _ _ (by omega)]
    simp

theorem metaInput_getD (p : Psp) (membership : List ℕ) (i t : ℕ)
    (ht : t < p.horizon) :
    (metaInput p membership i).getD t 0 = memberDemandAt p membership i t := by
  unfold metaInput
  rw [List.getD_eq_getElem _ _ (by simpa using ht), List.getElem_map,
    List.getElem_range]

theorem metaInput_drop_sum (p : Psp) (membership : List ℕ) (i : ℕ)
    (hrows : ∀ row ∈ p.demands, row.length = p.horizon) :
    ∀ t, ((metaInput p membership i).drop t).sum = clusterUnits p membership i t := by
  have hzero : ∀ t, p.horizon ≤ t →
      ((metaInput p membership i).drop t).sum = clusterUnits p membership i t := by
    intro t ht
    have h1 : (metaInput p membership i).drop t = [] := by
      apply List.drop_eq_nil_of_le
      simpa [metaInput] using ht
    rw [h1]
    have h2 : ∀ x ∈ (clusterItems p.n_items membership i).map
        (fun j => ((p.demands.getD j []).drop t).sum), x = 0 := by
      intro x hx
      rcases List.mem_map.1 hx with ⟨j, _, rfl⟩
      have hrow : ((p.demands.getD j []).drop t) = [] := by
        apply List.drop_eq_nil_of_le
        by_cases hj : j < p.demands.length
        · rw [List.getD_eq_getElem _ _ hj]
          have := hrows (p.demands[j]) (List.getElem_mem hj)
          omega
        · rw [List.getD_eq_default _ _ (by omega)]
          simp
      rw [hrow]
      rfl
    rw [List.sum_nil]
    unfold clusterUnits
    exact (List.sum_eq_zero h2).symm
  have key : ∀ fuel t, p.horizon - t ≤ fuel →
      ((metaInput p membership i).drop t).sum = clusterUnits p membership i t := by
    intro fuel
    induction fuel with
    | zero => intro t ht; exact hzero t (by omega)
    | succ fuel ih =>
      intro t ht
      by_cases hlt : t < p.horizon
      · rw [drop_sum_eq, metaInput_getD p membership i t hlt, ih (t + 1) (by omega)]
        unfold clusterUnits
        have hpt : ∀ j ∈ clusterItems p.n_items membership i,
            ((p.demands.getD j []).drop t).sum =
              (p.demands.getD j []).getD t 0 + ((p.demands.getD j []).drop (t + 1)).sum :=
          fun j _ => drop_sum_eq _ t
        rw [List.map_congr_left hpt, List.sum_map_add, memberDemandAt_eq]
      · exact hzero t (by omega)
  intro t
  exact key (p.horizon - t) t le_rfl

theorem computeMetaDemands_getD (p : Psp) (membership : List ℕ) (k i : ℕ)
    (hi : i < k) :
    (computeMetaDemands p membership k).getD i [] =
      (sweepAux (metaInput p membership i)).1 := by
  unfold computeMetaDemands metaInput
  rw [List.getD_eq_getElem _ _ (by simpa using hi), List.getElem_map,
    List.getElem_range]

/-- C3: the built meta demand matrix is 0/1, and the number of meta
demand units at periods `≥ t` equals the minimum of the member demand
units at periods `≥ t` and one more than the meta units at periods
`≥ t + 1`: at most one meta demand is emitted per period and buffered
units are discharged at the latest feasible period. -/
theorem c3_meta_demand_recurrence (p : Psp) (membership : List ℕ) (k : ℕ)
    (hrows : ∀ row ∈ p.demands, row.length = p.horizon) :
    zeroOne (computeMetaDemands p membership k) = true ∧
    ∀ i, i < k → ∀ t, t < p.horizon →
      (((computeMetaDemands p membership k).getD i []).drop t).sum =
        min (clusterUnits p membership i t)
            (1 + (((computeMetaDemands p membership k).getD i []).drop (t + 1)).sum) := by
  constructor
  · unfold zeroOne computeMetaDemands
    rw [List.all_eq_true]
    intro row hrow
    rcases List.mem_map.1 hrow with ⟨i, _, rfl⟩
    rw [List.all_eq_true]
    intro x hx
    simpa using sweepAux_mem _ x hx
  · intro i hi t ht
    rw [computeMetaDemands_getD p membership k i hi]
    rw [sweepAux_drop, sweepAux_drop]
    have hcons : (metaInput p membership i).drop t =
        memberDemandAt p membership i t :: (metaInput p membership i).drop (t + 1) := by
      have hlen : t < (metaInput p membership i).length := by simpa [metaInput] using ht
      rw [List.drop_eq_getElem_cons hlen]
      congr 1
      rw [← metaInput_getD p membership i t ht, List.getD_eq_getElem _ _ hlen]
    rw [hcons, sweepAux_sum_cons]
    have hsum : memberDemandAt p membership i t +
        ((metaInput p membership i).drop (t + 1)).sum =
        clusterUnits p membership i t := by
      rw [← metaInput_drop_sum p membership i hrows t, drop_sum_eq _ t,
        metaInput_getD p membership i t ht]
    rw [hsum]

/-- Witness for C3 at a concrete instance and membership. -/
theorem c3_meta_demand_recurrence_witness :
    (∀ row ∈ (mkPsp ⟨2, 2, [0, 0], [[0, 0], [0, 0]], [[1, 0], [0, 1]]⟩).demands,
      row.length = (mkPsp ⟨2, 2, [0, 0], [[0, 0], [0, 0]], [[1, 0], [0, 1]]⟩).horizon) ∧
    zeroOne (computeMetaDemands
      (mkPsp ⟨2, 2, [0, 0], [[0, 0], [0, 0]], [[1, 0], [0, 1]]⟩) [0, 0] 1) = true := by
  refine ⟨by decide, ?_⟩
  exact (c3_meta_demand_recurrence
    (mkPsp ⟨2, 2, [0, 0], [[0, 0], [0, 0]], [[1, 0], [0, 1]]⟩) [0, 0] 1 (by decide)).1

/-! ## Lemmas about the min-scatter folds of the meta cost builders -/

theorem getD_set_self {α : Type} (l : List α) (i : ℕ) (v d : α) (h : i < l.length) :
    (l.set i v).getD i d = v := by
  rw [List.getD_eq_getElem?_getD, List.getElem?_set_self (by simpa using h)]
  rfl

theorem getD_set_ne {α : Type} (l : List α) (i j : ℕ) (v d : α) (h : i ≠ j) :
    (l.set i v).getD j d = l.getD j d := by
  rw [List.getD_eq_getElem?_getD, List.getElem?_set_ne h, ← List.getD_eq_getElem?_getD]

theorem foldr_min_comm (l : List ℕ) (b v : ℕ) :
    l.foldr min (min b v) = min v (l.foldr min b) := by
  induction l with
  | nil => simp [min_comm]
  | cons x xs ih => simp only [List.foldr_cons, ih, min_left_comm]

theorem foldr_min_le (l : List ℕ) (M : ℕ) : ∀ x ∈ l, l.foldr min M ≤ x := by
  induction l with
  | nil => intro x hx; cases hx
  | cons y ys ih =>
    intro x hx
    rcases List.mem_cons.1 hx with rfl | hx
    · exact min_le_left _ _
    · exact le_trans (min_le_right _ _) (ih x hx)

theorem foldr_min_mem (l : List ℕ) (M : ℕ) (hb : ∀ x ∈ l, x ≤ M) (hne : l ≠ []) :
    l.foldr min M ∈ l := by
  induction l with
  | nil => cases hne rfl
  | cons y ys ih =>
    cases ys with
    | nil =>
      have h : min y M = y := min_eq_left (hb y (by simp))
      simp [h]
    | cons z zs =>
      rcases min_choice y ((z :: zs).foldr min M) with h | h
      · rw [List.foldr_cons, h]
        exact List.mem_cons_self _ _
      · rw [List.foldr_cons, h]
        exact List.mem_cons_of_mem _
          (ih (fun x hx => hb x (List.mem_cons_of_mem _ hx)) (by simp))

theorem min?_eq_foldr_min (l : List ℕ) (M : ℕ) (hne : l ≠ []) (hb : ∀ x ∈ l, x ≤ M) :
    l.min? = some (l.foldr min M) := by
  rw [List.min?_eq_some_iff (fun a => le_refl a) (fun a b => min_choice a b)
    (fun a b c => le_min_iff)]
  exact ⟨foldr_min_mem l M hb hne, foldr_min_le l M⟩

theorem scatterMin_cons (q : ℕ × ℕ) (ps : List (ℕ × ℕ)) (init : List ℕ) :
    scatterMin (q :: ps) init =
      scatterMin ps (init.set q.1 (min (init.getD q.1 0) q.2)) := rfl

theorem scatterMin_getD (ps : List (ℕ × ℕ)) :
    ∀ (init : List ℕ) (a : ℕ), a < init.length →
      (scatterMin ps init).getD a 0 =
        ((ps.filter (fun q => q.1 = a)).map Prod.snd).foldr min (init.getD a 0) := by
  induction ps with
  | nil => intro init a _; rfl
  | cons q ps ih =>
    intro init a ha
    rw [scatterMin_cons]
    by_cases hq : q.1 = a
    · subst hq
      rw [ih _ q.1 (by rw [List.length_set]; exact ha), getD_set_self _ _ _ _ ha,
        List.filter_cons, if_pos (by simp), List.map_cons, List.foldr_cons]
      exact foldr_min_comm _ _ _
    · rw [ih _ a (by rw [List.length_set]; exact ha), getD_set_ne _ _ _ _ _ hq,
        List.filter_cons, if_neg (by simpa using hq)]

theorem getD_replicate_self {α : Type} (n i : ℕ) (v d : α) (h : i < n) :
    (List.replicate n v).getD i d = v := by
  rw [List.getD_eq_getElem?_getD, List.getElem?_replicate, if_pos h]
  rfl

theorem computeMetaStocking_getD (p : Psp) (membership : List ℕ) (k a : ℕ)
    (ha : a < k) :
    (computeMetaStocking p membership k).getD a 0 =
      (((List.range membership.length).filter (fun i => membership.getD i 0 = a)).map
        (fun i => p.stocking.getD i 0)).foldr min usizeMax := by
  unfold computeMetaStocking
  rw [scatterMin_getD _ _ a (by simpa using ha)]
  have h1 : (((List.range membership.length).map
        (fun i => (membership.getD i 0, p.stocking.getD i 0))).filter
        (fun q => q.1 = a)).map Prod.snd =
      ((List.range membership.length).filter (fun i => membership.getD i 0 = a)).map
        (fun i => p.stocking.getD i 0) := by
    rw [List.filter_map, List.map_map]
    rfl
  rw [h1, getD_replicate_self _ _ _ _ ha]

theorem foldl_ite_filterMap {α β γ : Type} (g : γ → β → γ) (P : α → Prop)
    [DecidablePred P] (f : α → β) (l : List α) :
    ∀ init : γ, l.foldl (fun acc x => if P x then g acc (f x) else acc) init =
      (l.filterMap (fun x => if P x then some (f x) else none)).foldl g init := by
  induction l with
  | nil => intro init; rfl
  | cons x xs ih =>
    intro init
    rw [List.foldl_cons, List.filterMap_cons]
    by_cases hx : P x
    · simp only [if_pos hx]
      rw [List.foldl_cons]
      exact ih _
    · simp only [if_neg hx]
      exact ih init

theorem scatter2Step_length (init : List (List ℕ)) (q : (ℕ × ℕ) × ℕ) :
    (scatter2Step init q).length = init.length := by
  unfold scatter2Step
  rw [List.length_set]

theorem scatter2Step_rows (w : ℕ) (init : List (List ℕ)) (q : (ℕ × ℕ) × ℕ)
    (hrows : ∀ row ∈ init, row.length = w) :
    ∀ row ∈ scatter2Step init q, row.length = w := by
  by_cases hq : q.1.1 < init.length
  · intro row hrow
    rcases List.mem_or_eq_of_mem_set hrow with h | h
    · exact hrows row h
    · subst h
      rw [List.length_set, List.getD_eq_getElem _ _ hq]
      exact hrows _ (List.getElem_mem hq)
  · unfold scatter2Step
    rw [List.set_eq_of_length_le (by omega)]
    exact hrows

theorem scatter2_length (ps : List ((ℕ × ℕ) × ℕ)) :
    ∀ init : List (List ℕ), (ps.foldl scatter2Step init).length = init.length := by
  induction ps with
  | nil => intro init; rfl
  | cons q ps ih =>
    intro init
    rw [List.foldl_cons, ih, scatter2Step_length]

theorem scatter2_rows (w : ℕ) (ps : List ((ℕ × ℕ) × ℕ)) :
    ∀ init : List (List ℕ), (∀ row ∈ init, row.length = w) →
      ∀ row ∈ ps.foldl scatter2Step init, row.length = w := by
  induction ps with
  | nil => intro init h; exact h
  | cons q ps ih =>
    intro init h
    rw [List.foldl_cons]
    exact ih _ (scatter2Step_rows w init q h)

theorem rowLen_getD (w : ℕ) (init : List (List ℕ)) (a : ℕ)
    (hrows : ∀ row ∈ init, row.length = w) (ha : a < init.length) :
    (init.getD a []).length = w := by
  rw [List.getD_eq_getElem _ _ ha]
  exact hrows _ (List.getElem_mem ha)

theorem scatter2_getD (w : ℕ) (ps : List ((ℕ × ℕ) × ℕ)) :
    ∀ (init : List (List ℕ)) (a b : ℕ), a < init.length → b < w →
      (∀ row ∈ init, row.length = w) →
      ((ps.foldl scatter2Step init).getD a []).getD b 0 =
        ((ps.filter (fun q => q.1 = (a, b))).map Prod.snd).foldr min
          ((init.getD a []).getD b 0) := by
  induction ps with
  | nil => intro init a b _ _ _; rfl
  | cons q ps ih =>
    intro init a b ha hb hrows
    rw [List.foldl_cons]
    have hlen : a < (scatter2Step init q).length := by rw [scatter2Step_length]; exact ha
    have hrows2 := scatter2Step_rows w init q hrows
    by_cases hq : q.1 = (a, b)
    · have hq1 : q.1.1 = a := by rw [hq]
      have hq2 : q.1.2 = b := by rw [hq]
      have hbase : ((scatter2Step init q).getD a []).getD b 0 =
          min ((init.getD a []).getD b 0) q.2 := by
        unfold scatter2Step
        rw [hq1, hq2, getD_set_self _ _ _ _ ha,
          getD_set_self _ _ _ _ (by rw [rowLen_getD w init a hrows ha]; exact hb)]
      rw [ih _ a b hlen hb hrows2, hbase, List.filter_cons, if_pos (by simp [hq]),
        List.map_cons, List.foldr_cons]
      exact foldr_min_comm _ _ _
    · have hbase : ((scatter2Step init q).getD a []).getD b 0 =
          (init.getD a []).getD b 0 := by
        unfold scatter2Step
        by_cases hq1 : q.1.1 = a
        · have hq2 : q.1.2 ≠ b := by
            intro hq2
            exact hq (Prod.ext hq1 hq2)
          rw [hq1, getD_set_self _ _ _ _ ha, getD_set_ne _ _ _ _ _ hq2]
        · rw [getD_set_ne _ _ _ _ _ hq1]
      rw [ih _ a b hlen hb hrows2, hbase, List.filter_cons,
        if_neg (by simpa using hq)]

theorem diag_fold_getD (l : List ℕ) :
    ∀ (acc : List (List ℕ)) (a b : ℕ), a < acc.length →
      b < (acc.getD a []).length →
      ((l.foldl (fun acc i => acc.set i ((acc.getD i []).set i 0)) acc).getD a
        []).getD b 0 =
        if a = b ∧ a ∈ l then 0 else (acc.getD a []).getD b 0 := by
  induction l with
  | nil => intro acc a b _ _; simp
  | cons i l ih =>
    intro acc a b ha hb
    rw [List.foldl_cons]
    set acc2 := acc.set i ((acc.getD i []).set i 0) with hacc2
    have hlen2 : a < acc2.length := by rw [hacc2, List.length_set]; exact ha
    have hrow2 : b < (acc2.getD a []).length := by
      rw [hacc2]
      by_cases hia : i = a
      · subst hia
        by_cases hi2 : i < acc.length
        · rw [getD_set_self _ _ _ _ hi2, List.length_set]
          exact hb
        · rw [List.set_eq_of_length_le (by omega)]
          exact hb
      · rw [getD_set_ne _ _ _ _ _ hia]
        exact hb
    rw [ih acc2 a b hlen2 hrow2]
    by_cases hab : a = b
    · subst hab
      by_cases hal : a ∈ l
      · rw [if_pos ⟨rfl, hal⟩, if_pos ⟨rfl, List.mem_cons_of_mem _ hal⟩]
      · by_cases hia : i = a
        · subst hia
          rw [if_neg (fun hc => hal hc.2), if_pos ⟨rfl, List.mem_cons_self _ _⟩,
            hacc2, getD_set_self _ _ _ _ ha,
            getD_set_self _ _ _ _ (by rw [List.getD_eq_getElem _ _ ha] at hb ⊢; exact hb)]
        · rw [if_neg (fun hc => hal hc.2),
            if_neg (fun hc => hia ((List.mem_cons.1 hc.2).elim (fun h => h.symm) (fun h => absurd h hal))),
            hacc2, getD_set_ne _ _ _ _ _ hia]
    · rw [if_neg (fun hc => hab hc.1), if_neg (fun hc => hab hc.1), hacc2]
      by_cases hia : i = a
      · subst hia
        by_cases hi2 : i < acc.length
        · rw [getD_set_self _ _ _ _ hi2, getD_set_ne _ _ _ _ _ (fun hc => hab hc)]
        · rw [List.set_eq_of_length_le (by omega)]
      · rw [getD_set_ne _ _ _ _ _ hia]

theorem computeMetaChangeover_eq (p : Psp) (membership : List ℕ) (k : ℕ) :
    computeMetaChangeover p membership k =
      (List.range k).foldl (fun acc i => acc.set i ((acc.getD i []).set i 0))
        (((indexPairs membership.length).filterMap
          (fun q => if membership.getD q.1 0 ≠ membership.getD q.2 0 then
            some ((membership.getD q.1 0, membership.getD q.2 0),
              (p.changeover.getD q.1 []).getD q.2 0) else none)).foldl scatter2Step
          (List.replicate k (List.replicate k usizeMax))) := by
  have h := foldl_ite_filterMap scatter2Step
    (fun q : ℕ × ℕ => membership.getD q.1 0 ≠ membership.getD q.2 0)
    (fun q : ℕ × ℕ => ((membership.getD q.1 0, membership.getD q.2 0),
      (p.changeover.getD q.1 []).getD q.2 0))
    (indexPairs membership.length)
    (List.replicate k (List.replicate k usizeMax))
  exact congrArg (fun z => (List.range k).foldl
    (fun acc i => acc.set i ((acc.getD i []).set i 0)) z) h

theorem cross_filter_eq (p : Psp) (membership : List ℕ) (a b : ℕ) (hab : a ≠ b) :
    ∀ l : List (ℕ × ℕ),
      ((l.filterMap (fun q => if membership.getD q.1 0 ≠ membership.getD q.2 0 then
          some ((membership.getD q.1 0, membership.getD q.2 0),
            (p.changeover.getD q.1 []).getD q.2 0) else none)).filter
        (fun q => q.1 = (a, b))).map Prod.snd =
      (l.filter (fun q => membership.getD q.1 0 = a ∧ membership.getD q.2 0 = b)).map
        (fun q => (p.changeover.getD q.1 []).getD q.2 0) := by
  intro l
  induction l with
  | nil => rfl
  | cons q l ih =>
    rw [List.filterMap_cons]
    by_cases hne : membership.getD q.1 0 ≠ membership.getD q.2 0
    · simp only [if_pos hne]
      by_cases hq : membership.getD q.1 0 = a ∧ membership.getD q.2 0 = b
      · have hL : ((((membership.getD q.1 0, membership.getD q.2 0),
            (p.changeover.getD q.1 []).getD q.2 0) ::
            (l.filterMap (fun q => if membership.getD q.1 0 ≠ membership.getD q.2 0 then
              some ((membership.getD q.1 0, membership.getD q.2 0),
                (p.changeover.getD q.1 []).getD q.2 0) else none))).filter
            (fun q => q.1 = (a, b))).map Prod.snd =
            (p.changeover.getD q.1 []).getD q.2 0 ::
            ((l.filterMap (fun q => if membership.getD q.1 0 ≠ membership.getD q.2 0 then
              some ((membership.getD q.1 0, membership.getD q.2 0),
                (p.changeover.getD q.1 []).getD q.2 0) else none)).filter
              (fun q => q.1 = (a, b))).map Prod.snd := by
          rw [List.filter_cons,
            if_pos (by simp only [decide_eq_true_eq, Prod.mk.injEq]; exact hq),
            List.map_cons]
        have hR : ((q :: l).filter
            (fun q => membership.getD q.1 0 = a ∧ membership.getD q.2 0 = b)).map
            (fun q => (p.changeover.getD q.1 []).getD q.2 0) =
            (p.changeover.getD q.1 []).getD q.2 0 ::
            (l.filter (fun q => membership.getD q.1 0 = a ∧
              membership.getD q.2 0 = b)).map
              (fun q => (p.changeover.getD q.1 []).getD q.2 0) := by
          rw [List.filter_cons, if_pos (by simp only [decide_eq_true_eq]; exact hq),
            List.map_cons]
        rw [hL, hR, ih]
      · have hL : (((membership.getD q.1 0, membership.getD q.2 0),
            (p.changeover.getD q.1 []).getD q.2 0) ::
            (l.filterMap (fun q => if membership.getD q.1 0 ≠ membership.getD q.2 0 then
              some ((membership.getD q.1 0, membership.getD q.2 0),
                (p.changeover.getD q.1 []).getD q.2 0) else none))).filter
            (fun q => q.1 = (a, b)) =
            (l.filterMap (fun q => if membership.getD q.1 0 ≠ membership.getD q.2 0 then
              some ((membership.getD q.1 0, membership.getD q.2 0),
                (p.changeover.getD q.1 []).getD q.2 0) else none)).filter
              (fun q => q.1 = (a, b)) := by
          rw [List.filter_cons, if_neg]
          simp only [decide_eq_true_eq, Prod.mk.injEq]
          intro hc
          exact hq ⟨hc.1, hc.2⟩
        have hR : (q :: l).filter
            (fun q => membership.getD q.1 0 = a ∧ membership.getD q.2 0 = b) =
            l.filter (fun q => membership.getD q.1 0 = a ∧
              membership.getD q.2 0 = b) := by
          rw [List.filter_cons, if_neg (by simp only [decide_eq_true_eq]; exact hq)]
        rw [hL, hR, ih]
    · simp only [if_neg hne]
      have heq : membership.getD q.1 0 = membership.getD q.2 0 := by
        by_contra hc
        exact hne hc
      have hR : (q :: l).filter
          (fun q => membership.getD q.1 0 = a ∧ membership.getD q.2 0 = b) =
          l.filter (fun q => membership.getD q.1 0 = a ∧
            membership.getD q.2 0 = b) := by
        rw [List.filter_cons, if_neg]
        simp only [decide_eq_true_eq]
        intro hc
        exact hab (by rw [← hc.1, heq, hc.2])
      rw [hR, ih]

theorem mem_indexPairs (n i j : ℕ) : (i, j) ∈ indexPairs n ↔ i < n ∧ j < n := by
  simp [indexPairs]


theorem stocking_getD_le (p : Psp) (hstock : ∀ x ∈ p.stocking, x ≤ usizeMax)
    (i : ℕ) : p.stocking.getD i 0 ≤ usizeMax := by
  by_cases hi : i < p.stocking.length
  · rw [List.getD_eq_getElem _ _ hi]
    exact hstock _ (List.getElem_mem hi)
  · rw [List.getD_eq_default _ _ (by omega)]
    exact Nat.zero_le _

theorem changeover_getD_le (p : Psp)
    (hchange : ∀ row ∈ p.changeover, ∀ x ∈ row, x ≤ usizeMax) (i j : ℕ) :
    (p.changeover.getD i []).getD j 0 ≤ usizeMax := by
  by_cases hi : i < p.changeover.length
  · by_cases hj : j < (p.changeover.getD i []).length
    · rw [List.getD_eq_getElem _ _ hj]
      apply hchange (p.changeover.getD i [])
      · rw [List.getD_eq_getElem _ _ hi]
        exact List.getElem_mem hi
      · exact List.getElem_mem hj
    · rw [List.getD_eq_default _ _ (by omega)]
      exact Nat.zero_le _
  · rw [show p.changeover.getD i [] = [] from List.getD_eq_default _ _ (by omega)]
    simp

/-- C2: with every cluster non-empty, each meta stocking cost is the
minimum member stocking cost, each off-diagonal meta changeover cost is
the minimum changeover cost over the cross-member pairs, and the
diagonal is zero. -/
theorem c2_meta_costs (p : Psp) (membership : List ℕ) (k : ℕ)
    (hmemlen : membership.length = p.n_items)
    (hnonempty : ∀ a, a < k → clusterItems p.n_items membership a ≠ [])
    (hstock : ∀ x ∈ p.stocking, x ≤ usizeMax)
    (hchange : ∀ row ∈ p.changeover, ∀ x ∈ row, x ≤ usizeMax) :
    (∀ a, a < k →
      (memberStockings p membership a).min? =
        some ((computeMetaStocking p membership k).getD a 0)) ∧
    (∀ a b, a < k → b < k → a ≠ b →
      (crossCosts p membership a b).min? =
        some (((computeMetaChangeover p membership k).getD a []).getD b 0)) ∧
    (∀ a, a < k → ((computeMetaChangeover p membership k).getD a []).getD a 0 = 0) := by
  have hch := computeMetaChangeover_eq p membership k
  set ps := (indexPairs membership.length).filterMap
    (fun q => if membership.getD q.1 0 ≠ membership.getD q.2 0 then
      some ((membership.getD q.1 0, membership.getD q.2 0),
        (p.changeover.getD q.1 []).getD q.2 0) else none) with hps
  set init := List.replicate k (List.replicate k usizeMax) with hinit
  have hinitlen : init.length = k := by rw [hinit, List.length_replicate]
  have hinitrows : ∀ row ∈ init, row.length = k := by
    intro row hrow
    rw [List.eq_of_mem_replicate hrow, List.length_replicate]
  have hscatlen : (ps.foldl scatter2Step init).length = k := by
    rw [scatter2_length, hinitlen]
  have hscatrows := scatter2_rows k ps init hinitrows
  refine ⟨?_, ?_, ?_⟩
  · intro a ha
    rw [computeMetaStocking_getD p membership k a ha]
    have h1 : ((List.range membership.length).filter
        (fun i => membership.getD i 0 = a)).map (fun i => p.stocking.getD i 0) =
        memberStockings p membership a := by
      rw [hmemlen]
      rfl
    rw [h1]
    apply min?_eq_foldr_min
    · intro hc
      exact hnonempty a ha (by simpa [memberStockings] using hc)
    · intro x hx
      rcases List.mem_map.1 hx with ⟨i, _, rfl⟩
      exact stocking_getD_le p hstock i
  · intro a b ha hb hab
    rw [hch]
    have hdiag := diag_fold_getD (List.range k) (ps.foldl scatter2Step init) a b
      (by rw [hscatlen]; exact ha)
      (by rw [rowLen_getD k _ a hscatrows (by rw [hscatlen]; exact ha)]; exact hb)
    rw [hdiag, if_neg (fun hc => hab hc.1)]
    rw [scatter2_getD k ps init a b (by rw [hinitlen]; exact ha) hb hinitrows]
    have hinitab : (init.getD a []).getD b 0 = usizeMax := by
      rw [hinit, getD_replicate_self _ _ _ _ ha, getD_replicate_self _ _ _ _ hb]
    rw [hinitab, hps, cross_filter_eq p membership a b hab, hmemlen]
    have h2 : ((indexPairs p.n_items).filter
        (fun q => membership.getD q.1 0 = a ∧ membership.getD q.2 0 = b)).map
        (fun q => (p.changeover.getD q.1 []).getD q.2 0) =
        crossCosts p membership a b := rfl
    rw [h2]
    apply min?_eq_foldr_min
    · rcases List.exists_mem_of_ne_nil _ (hnonempty a ha) with ⟨i, hi⟩
      rcases List.exists_mem_of_ne_nil _ (hnonempty b hb) with ⟨j, hj⟩
      rcases List.mem_filter.1 hi with ⟨hirange, hia⟩
      rcases List.mem_filter.1 hj with ⟨hjrange, hjb⟩
      apply List.ne_nil_of_mem (a := (p.changeover.getD i []).getD j 0)
      apply List.mem_map.2
      refine ⟨(i, j), ?_, rfl⟩
      apply List.mem_filter.2
      refine ⟨(mem_indexPairs p.n_items i j).2
        ⟨List.mem_range.1 hirange, List.mem_range.1 hjrange⟩, ?_⟩
      simp only [decide_eq_true_eq]
      exact ⟨by simpa using hia, by simpa using hjb⟩
    · intro x hx
      rcases List.mem_map.1 hx with ⟨q, _, rfl⟩
      exact changeover_getD_le p hchange q.1 q.2
  · intro a ha
    rw [hch]
    have hdiag := diag_fold_getD (List.range k) (ps.foldl scatter2Step init) a a
      (by rw [hscatlen]; exact ha)
      (by rw [rowLen_getD k _ a hscatrows (by rw [hscatlen]; exact ha)]; exact ha)
    rw [hdiag, if_pos ⟨rfl, List.mem_range.2 ha⟩]

/-- Witness for C2 at a concrete instance and membership. -/
theorem c2_meta_costs_witness :
    ((memberStockings (mkPsp ⟨3, 3, [5, 7, 6], [[0, 3, 9], [4, 0, 2], [8, 1, 0]],
        [[1, 0, 0], [0, 1, 0], [0, 0, 0]]⟩) [0, 1, 0] 0).min? =
      some ((computeMetaStocking (mkPsp ⟨3, 3, [5, 7, 6], [[0, 3, 9], [4, 0, 2], [8, 1, 0]],
        [[1, 0, 0], [0, 1, 0], [0, 0, 0]]⟩) [0, 1, 0] 2).getD 0 0)) ∧
    ((crossCosts (mkPsp ⟨3, 3, [5, 7, 6], [[0, 3, 9], [4, 0, 2], [8, 1, 0]],
        [[1, 0, 0], [0, 1, 0], [0, 0, 0]]⟩) [0, 1, 0] 0 1).min? =
      some (((computeMetaChangeover (mkPsp ⟨3, 3, [5, 7, 6], [[0, 3, 9], [4, 0, 2], [8, 1, 0]],
        [[1, 0, 0], [0, 1, 0], [0, 0, 0]]⟩) [0, 1, 0] 2).getD 0 []).getD 1 0)) := by
  have h := c2_meta_costs (mkPsp ⟨3, 3, [5, 7, 6], [[0, 3, 9], [4, 0, 2], [8, 1, 0]],
      [[1, 0, 0], [0, 1, 0], [0, 0, 0]]⟩) [0, 1, 0] 2 (by decide)
    (by decide) (by decide) (by decide)
  exact ⟨h.1 0 (by decide), h.2.1 0 1 (by decide) (by decide) (by decide)⟩

/-! ## Lemmas about the reverse-count index builder -/

theorem scatterAdd_cons (q : ℕ × ℕ) (ps : List (ℕ × ℕ)) (init : List ℕ) :
    scatterAdd (q :: ps) init =
      scatterAdd ps (init.set q.1 (init.getD q.1 0 + q.2)) := rfl

theorem scatterAdd_length (ps : List (ℕ × ℕ)) :
    ∀ init : List ℕ, (scatterAdd ps init).length = init.length := by
  induction ps with
  | nil => intro init; rfl
  | cons q ps ih =>
    intro init
    rw [scatterAdd_cons, ih, List.length_set]

theorem scatterAdd_getD (ps : List (ℕ × ℕ)) :
    ∀ (init : List ℕ) (a : ℕ), a < init.length →
      (scatterAdd ps init).getD a 0 =
        init.getD a 0 + ((ps.filter (fun q => q.1 = a)).map Prod.snd).sum := by
  induction ps with
  | nil => intro init a _; simp [scatterAdd]
  | cons q ps ih =>
    intro init a ha
    rw [scatterAdd_cons]
    by_cases hq : q.1 = a
    · subst hq
      rw [ih _ q.1 (by rw [List.length_set]; exact ha), getD_set_self _ _ _ _ ha,
        List.filter_cons, if_pos (by simp), List.map_cons, List.sum_cons]
      omega
    · rw [ih _ a (by rw [List.length_set]; exact ha), getD_set_ne _ _ _ _ _ hq,
        List.filter_cons, if_neg (by simpa using hq)]

theorem rdtpd_fold_char (remRow : List ℕ) (l : List ℤ) :
    ∀ v : List ℤ,
      (∀ prev ∈ l, 0 ≤ prev → remRow.getD prev.toNat 0 < v.length) →
      ∃ w, l.foldl (rdtpdStep remRow) (some v) = some w ∧ w.length = v.length ∧
        ∀ r : ℕ,
          ((∀ prev ∈ l, 0 ≤ prev → remRow.getD prev.toNat 0 ≠ r) →
            w.getD r 0 = v.getD r 0) ∧
          ∀ P : ℤ → Prop,
            (∃ prev ∈ l, 0 ≤ prev ∧ remRow.getD prev.toNat 0 = r) →
            (∀ prev ∈ l, 0 ≤ prev → remRow.getD prev.toNat 0 = r → P prev) →
            P (w.getD r 0) := by
  induction l with
  | nil =>
    intro v _
    refine ⟨v, rfl, rfl, ?_⟩
    intro r
    constructor
    · intro _; rfl
    · intro P hex _
      rcases hex with ⟨prev, hmem, _⟩
      cases hmem
  | cons prev l ih =>
    intro v hv
    rw [List.foldl_cons]
    by_cases hp : 0 ≤ prev
    · have hidx : remRow.getD prev.toNat 0 < v.length :=
        hv prev (List.mem_cons_self _ _) hp
      have hstep : rdtpdStep remRow (some v) prev =
          some (v.set (remRow.getD prev.toNat 0) prev) := by
        unfold rdtpdStep
        rw [Option.some_bind, if_pos hp, if_pos hidx]
      rw [hstep]
      set v2 := v.set (remRow.getD prev.toNat 0) prev with hv2
      have hlen2 : v2.length = v.length := by rw [hv2, List.length_set]
      rcases ih v2 (fun q hq hq0 => by
        rw [hlen2]
        exact hv q (List.mem_cons_of_mem _ hq) hq0) with ⟨w, hw, hwlen, hchar⟩
      refine ⟨w, hw, by rw [hwlen, hlen2], ?_⟩
      intro r
      constructor
      · intro hnone
        rw [(hchar r).1 (fun q hq hq0 => hnone q (List.mem_cons_of_mem _ hq) hq0),
          hv2, getD_set_ne _ _ _ _ _ (hnone prev (List.mem_cons_self _ _) hp)]
      · intro P hex hall
        by_cases htail : ∃ q ∈ l, 0 ≤ q ∧ remRow.getD q.toNat 0 = r
        · exact (hchar r).2 P htail
            (fun q hq hq0 hqr => hall q (List.mem_cons_of_mem _ hq) hq0 hqr)
        · have hhead : remRow.getD prev.toNat 0 = r := by
            rcases hex with ⟨q, hq, hq0, hqr⟩
            rcases List.mem_cons.1 hq with rfl | hq
            · exact hqr
            · exact absurd ⟨q, hq, hq0, hqr⟩ htail
          have hvr : w.getD r 0 = v2.getD r 0 :=
            (hchar r).1 (fun q hq hq0 hqr => htail ⟨q, hq, hq0, hqr⟩)
          rw [hvr, hv2, ← hhead, getD_set_self _ _ _ _ hidx]
          exact hall prev (List.mem_cons_self _ _) hp hhead
    · have hstep : rdtpdStep remRow (some v) prev = some v := by
        unfold rdtpdStep
        rw [Option.some_bind, if_neg hp]
      rw [hstep]
      rcases ih v (fun q hq hq0 => hv q (List.mem_cons_of_mem _ hq) hq0) with
        ⟨w, hw, hwlen, hchar⟩
      refine ⟨w, hw, hwlen, ?_⟩
      intro r
      constructor
      · intro hnone
        exact (hchar r).1 (fun q hq hq0 => hnone q (List.mem_cons_of_mem _ hq) hq0)
      · intro P hex hall
        have htail : ∃ q ∈ l, 0 ≤ q ∧ remRow.getD q.toNat 0 = r := by
          rcases hex with ⟨q, hq, hq0, hqr⟩
          rcases List.mem_cons.1 hq with rfl | hq
          · exact absurd hq0 hp
          · exact ⟨q, hq, hq0, hqr⟩
        exact (hchar r).2 P htail
          (fun q hq hq0 hqr => hall q (List.mem_cons_of_mem _ hq) hq0 hqr)

theorem rdtpdRow_char (horizon : ℕ) (prevRow : List ℤ) (remRow : List ℕ)
    (hb : ∀ prev ∈ prevRow, 0 ≤ prev → remRow.getD prev.toNat 0 < horizon) :
    ∃ w, rdtpdRow horizon prevRow remRow = some w ∧ w.length = horizon ∧
      ∀ r : ℕ,
        ((∀ prev ∈ prevRow, 0 ≤ prev → remRow.getD prev.toNat 0 ≠ r) →
          w.getD r 0 = (List.replicate horizon (-1 : ℤ)).getD r 0) ∧
        ∀ P : ℤ → Prop,
          (∃ prev ∈ prevRow, 0 ≤ prev ∧ remRow.getD prev.toNat 0 = r) →
          (∀ prev ∈ prevRow, 0 ≤ prev → remRow.getD prev.toNat 0 = r → P prev) →
          P (w.getD r 0) := by
  have h := rdtpd_fold_char remRow prevRow (List.replicate horizon (-1))
    (fun prev hp h0 => by
      rw [List.length_replicate]
      exact hb prev hp h0)
  rcases h with ⟨w, hw, hwlen, hchar⟩
  exact ⟨w, hw, by rw [hwlen, List.length_replicate], hchar⟩

theorem mapM_some_getD {β : Type} (f : ℕ → Option β) (d : β) :
    ∀ l : List ℕ, (∀ x ∈ l, (f x).isSome) →
      ∃ ws : List β, l.mapM f = some ws ∧ ws.length = l.length ∧
        ∀ i, i < l.length → f (l.getD i 0) = some (ws.getD i d) := by
  intro l
  induction l with
  | nil => intro _; exact ⟨[], rfl, rfl, fun i hi => absurd hi (by simp)⟩
  | cons x xs ih =>
    intro h
    rcases Option.isSome_iff_exists.1 (h x (List.mem_cons_self _ _)) with ⟨y, hy⟩
    rcases ih (fun z hz => h z (List.mem_cons_of_mem _ hz)) with ⟨ws, hws, hlen, hget⟩
    refine ⟨y :: ws, ?_, by simp [hlen], ?_⟩
    · rw [List.mapM_cons, hy, hws]
      rfl
    · intro i hi
      cases i with
      | zero => simpa using hy
      | succ i =>
        rw [List.getD_cons_succ, List.getD_cons_succ]
        exact hget i (by simpa using hi)

/-! ## Lemmas about the demand index rows -/

theorem prevDemandAt_self (row : List ℕ) (t : ℕ) (h : 0 < row.getD t 0) :
    prevDemandAt row t = Int.ofNat t := by
  unfold prevDemandAt
  rw [List.range_succ, List.reverse_append]
  rw [show (List.reverse [t]) = [t] from rfl]
  rw [show ([t] ++ (List.range t).reverse) = t :: (List.range t).reverse from rfl]
  rw [List.find?_cons_of_pos _ (by simpa using h)]
  rfl

theorem prevDemandAt_cases (row : List ℕ) (t : ℕ) :
    prevDemandAt row t = -1 ∨
      ∃ p : ℕ, prevDemandAt row t = Int.ofNat p ∧ p ≤ t ∧ 0 < row.getD p 0 := by
  unfold prevDemandAt
  cases hf : ((List.range (t + 1)).reverse.find?
      (fun p => decide (0 < row.getD p 0))) with
  | none => left; rfl
  | some p =>
    right
    refine ⟨p, rfl, ?_, by simpa using List.find?_some hf⟩
    have hp := List.mem_of_find?_eq_some hf
    rw [List.mem_reverse] at hp
    exact Nat.lt_succ_iff.1 (List.mem_range.1 hp)

theorem computePrevDemands_getD (dm : List (List ℕ)) (i : ℕ) (hi : i < dm.length) :
    (computePrevDemands dm).getD i [] =
      (List.range (dm.getD i []).length).map (fun t => prevDemandAt (dm.getD i []) t) := by
  unfold computePrevDemands
  rw [List.getD_eq_getElem _ _ (by simpa using hi), List.getElem_map,
    List.getD_eq_getElem _ _ hi]

theorem computeRemDemands_getD (dm : List (List ℕ)) (i : ℕ) (hi : i < dm.length) :
    (computeRemDemands dm).getD i [] =
      (List.range (dm.getD i []).length).map (fun t => ((dm.getD i []).drop t).sum) := by
  unfold computeRemDemands
  rw [List.getD_eq_getElem _ _ (by simpa using hi), List.getElem_map,
    List.getD_eq_getElem _ _ hi]

/-- Reading the remaining-count row at any position gives the suffix sum
of the demand row. -/
theorem remRow_getD (row : List ℕ) (p : ℕ) :
    ((List.range row.length).map (fun t => (row.drop t).sum)).getD p 0 =
      (row.drop p).sum := by
  by_cases hp : p < row.length
  · rw [List.getD_eq_getElem _ _ (by simpa using hp), List.getElem_map,
      List.getElem_range]
  · rw [List.getD_eq_default _ _ (by simpa using hp),
      List.drop_eq_nil_of_le (by omega)]
    rfl

theorem drop_sum_le (l : List ℕ) (p : ℕ) : (l.drop p).sum ≤ l.sum :=
  List.Sublist.sum_le_sum (List.drop_sublist p l) (fun _ _ => Nat.zero_le _)

theorem drop_sum_anti (l : List ℕ) (a b : ℕ) (h : a ≤ b) :
    (l.drop b).sum ≤ (l.drop a).sum := by
  have : l.drop b = (l.drop a).drop (b - a) := by
    rw [List.drop_drop]
    congr 1
    omega
  rw [this]
  exact drop_sum_le _ _

theorem drop_sum_strict (l : List ℕ) (p q : ℕ) (hpq : p < q)
    (hd : 0 < l.getD p 0) : (l.drop q).sum < (l.drop p).sum := by
  have h1 := drop_sum_eq l p
  have h2 := drop_sum_anti l (p + 1) q (by omega)
  omega

/-- On a 0/1 list, every count between 1 and the total is attained as
the suffix sum at a demand position. -/
theorem sum_drop_surj (d : List ℕ) (h01 : ∀ x ∈ d, x ≤ 1) :
    ∀ r, 1 ≤ r → r ≤ d.sum →
      ∃ p, p < d.length ∧ 0 < d.getD p 0 ∧ (d.drop p).sum = r := by
  induction d with
  | nil => intro r h1 h2; simp at h2; omega
  | cons x xs ih =>
    intro r h1 h2
    by_cases hr : r ≤ xs.sum
    · rcases ih (fun y hy => h01 y (List.mem_cons_of_mem _ hy)) r h1 hr with
        ⟨p, hp, hd, hs⟩
      refine ⟨p + 1, by simpa using hp, ?_, ?_⟩
      · rw [List.getD_cons_succ]
        exact hd
      · rw [List.drop_succ_cons]
        exact hs
    · have hx : x = 1 := by
        have hx1 := h01 x (List.mem_cons_self _ _)
        rw [List.sum_cons] at h2
        omega
      refine ⟨0, by simp, by simp [hx], ?_⟩
      rw [List.drop_zero, List.sum_cons]
      rw [List.sum_cons] at h2
      omega

theorem take_sum_eq_range (row : List ℕ) :
    ∀ m : ℕ, (row.take m).sum = ((List.range m).map (fun t => row.getD t 0)).sum := by
  induction row with
  | nil =>
    intro m
    have h0 : ∀ x ∈ (List.range m).map (fun t => ([] : List ℕ).getD t 0), x = 0 := by
      intro x hx
      rcases List.mem_map.1 hx with ⟨t, _, rfl⟩
      rfl
    rw [List.take_nil, List.sum_nil]
    exact (List.sum_eq_zero h0).symm
  | cons x xs ih =>
    intro m
    cases m with
    | zero => rfl
    | succ m =>
      rw [List.take_succ_cons, List.sum_cons, List.range_succ_eq_map,
        List.map_cons, List.sum_cons, List.map_map]
      rw [ih m]
      rfl

theorem sum_map_swap {α β : Type} (L1 : List α) (L2 : List β) (f : α → β → ℕ) :
    (L1.map (fun a => (L2.map (f a)).sum)).sum =
      (L2.map (fun b => (L1.map (fun a => f a b)).sum)).sum := by
  induction L1 with
  | nil =>
    have h0 : ∀ x ∈ L2.map (fun b => (([] : List α).map (fun a => f a b)).sum), x = 0 := by
      intro x hx
      rcases List.mem_map.1 hx with ⟨b, _, rfl⟩
      rfl
    rw [List.map_nil, List.sum_nil]
    exact (List.sum_eq_zero h0).symm
  | cons a L1 ih =>
    rw [List.map_cons, List.sum_cons, ih]
    have : (L2.map (fun b => ((a :: L1).map (fun a => f a b)).sum)) =
        L2.map (fun b => f a b + (L1.map (fun a => f a b)).sum) := by
      apply List.map_congr_left
      intro b _
      rw [List.map_cons, List.sum_cons]
    rw [this, List.sum_map_add]

theorem sum_over_range_rows (dm : List (List ℕ)) (f : List ℕ → ℕ) :
    ((List.range dm.length).map (fun j => f (dm.getD j []))).sum = (dm.map f).sum := by
  induction dm with
  | nil => rfl
  | cons row rest ih =>
    rw [show (row :: rest).length = rest.length + 1 from rfl, List.range_succ_eq_map,
      List.map_cons, List.sum_cons, List.map_map, List.map_cons, List.sum_cons]
    rw [← ih]
    rfl

/-! ## Deadline feasibility and the meta demand count -/

theorem le_foldr_max (l : List ℕ) : ∀ x ∈ l, x ≤ l.foldr max 0 := by
  induction l with
  | nil => intro x hx; cases hx
  | cons y ys ih =>
    intro x hx
    rcases List.mem_cons.1 hx with rfl | hx
    · exact le_max_left _ _
    · exact le_trans (ih x hx) (le_max_right _ _)

theorem unitsUpTo_mono (dm : List (List ℕ)) (u v : ℕ) (huv : u ≤ v) :
    unitsUpTo dm u ≤ unitsUpTo dm v := by
  unfold unitsUpTo
  apply List.sum_le_sum
  intro row _
  have h1 := List.sum_take_add_sum_drop row (u + 1)
  have h2 := List.sum_take_add_sum_drop row (v + 1)
  have h3 := drop_sum_anti row (u + 1) (v + 1) (by omega)
  omega

theorem unitsUpTo_total (dm : List (List ℕ)) (u : ℕ)
    (h : ∀ row ∈ dm, row.length ≤ u + 1) :
    unitsUpTo dm u = totalUnits dm := by
  unfold unitsUpTo totalUnits
  apply congrArg
  apply List.map_congr_left
  intro row hrow
  rw [List.take_of_length_le (h row hrow)]

theorem deadlineFeasible_all (dm : List (List ℕ))
    (h : deadlineFeasible dm = true) : ∀ u, unitsUpTo dm u ≤ u + 1 := by
  intro u
  unfold deadlineFeasible at h
  rw [List.all_eq_true] at h
  set M := (dm.map List.length).foldr max 0 with hM
  have hrowlen : ∀ row ∈ dm, row.length ≤ M := by
    intro row hrow
    exact le_foldr_max _ _ (List.mem_map.2 ⟨row, hrow, rfl⟩)
  by_cases hu : u < M
  · simpa using h u (List.mem_range.2 hu)
  · by_cases hM0 : M = 0
    · have htot : unitsUpTo dm u = totalUnits dm :=
        unitsUpTo_total dm u (fun row hrow => by
          have := hrowlen row hrow
          omega)
      have hz : totalUnits dm = 0 := by
        unfold totalUnits
        apply List.sum_eq_zero
        intro x hx
        rcases List.mem_map.1 hx with ⟨row, hrow, rfl⟩
        have : row.length = 0 := by have := hrowlen row hrow; omega
        rw [List.eq_nil_of_length_eq_zero this]
        rfl
      omega
    · have h1 : unitsUpTo dm u = totalUnits dm :=
        unitsUpTo_total dm u (fun row hrow => by
          have := hrowlen row hrow
          omega)
      have h2 : unitsUpTo dm (M - 1) = totalUnits dm :=
        unitsUpTo_total dm (M - 1) (fun row hrow => by
          have := hrowlen row hrow
          omega)
      have h3 : unitsUpTo dm (M - 1) ≤ (M - 1) + 1 := by
        simpa using h (M - 1) (List.mem_range.2 (by omega))
      omega

theorem computeMetaDemands_length (p : Psp) (membership : List ℕ) (k : ℕ) :
    (computeMetaDemands p membership k).length = k := by
  unfold computeMetaDemands
  rw [List.length_map, List.length_range]

theorem metaRow_length (p : Psp) (membership : List ℕ) (i : ℕ) :
    (sweepAux (metaInput p membership i)).1.length = p.horizon := by
  rw [sweepAux_length]
  unfold metaInput
  rw [List.length_map, List.length_range]

theorem metaRow_sum_le (p : Psp) (membership : List ℕ) (i : ℕ)
    (hrows : ∀ row ∈ p.demands, row.length = p.horizon) :
    (sweepAux (metaInput p membership i)).1.sum ≤ clusterUnits p membership i 0 := by
  have h1 := sweepAux_sum_add (metaInput p membership i)
  have h2 := metaInput_drop_sum p membership i hrows 0
  rw [List.drop_zero] at h2
  omega

theorem memberDemandAt_le_all (p : Psp) (membership : List ℕ) (i t : ℕ) :
    memberDemandAt p membership i t ≤
      ((List.range p.n_items).map
        (fun j => (p.demands.getD j []).getD t 0)).sum := by
  rw [memberDemandAt_eq]
  apply List.Sublist.sum_le_sum _ (fun _ _ => Nat.zero_le _)
  exact List.Sublist.map _ (List.filter_sublist _)

/-- Under deadline feasibility, every period prefix of the aggregated
member demands fits into the corresponding production slots. -/
theorem metaInput_take_le (p : Psp) (membership : List ℕ) (i : ℕ)
    (hlen : p.demands.length = p.n_items)
    (hfeas : ∀ u, unitsUpTo p.demands u ≤ u + 1) :
    ∀ m, m ≤ (metaInput p membership i).length →
      ((metaInput p membership i).take m).sum ≤ m := by
  intro m hm
  cases m with
  | zero => simp
  | succ m0 =>
    have hmH : m0 + 1 ≤ p.horizon := by
      unfold metaInput at hm
      rw [List.length_map, List.length_range] at hm
      exact hm
    have htake : (metaInput p membership i).take (m0 + 1) =
        (List.range (m0 + 1)).map (memberDemandAt p membership i) := by
      unfold metaInput
      rw [← List.map_take, List.take_range]
      exact congrArg _ (congrArg List.range (min_eq_left hmH))
    rw [htake]
    have hstep1 : ((List.range (m0 + 1)).map (memberDemandAt p membership i)).sum ≤
        ((List.range (m0 + 1)).map (fun t =>
          ((List.range p.n_items).map
            (fun j => (p.demands.getD j []).getD t 0)).sum)).sum := by
      apply List.sum_le_sum
      intro t _
      exact memberDemandAt_le_all p membership i t
    have hstep2 : ((List.range (m0 + 1)).map (fun t =>
        ((List.range p.n_items).map
          (fun j => (p.demands.getD j []).getD t 0)).sum)).sum =
        unitsUpTo p.demands m0 := by
      rw [sum_map_swap]
      unfold unitsUpTo
      rw [← hlen, ← sum_over_range_rows p.demands (fun row => (row.take (m0 + 1)).sum)]
      apply congrArg
      apply List.map_congr_left
      intro j _
      rw [take_sum_eq_range]
    calc ((List.range (m0 + 1)).map (memberDemandAt p membership i)).sum
        ≤ unitsUpTo p.demands m0 := by rw [← hstep2]; exact hstep1
      _ ≤ m0 + 1 := hfeas m0

/-- Under deadline feasibility the meta demand count of a cluster equals
the total member demand. -/
theorem metaRow_sum_eq (p : Psp) (membership : List ℕ) (i : ℕ)
    (hrows : ∀ row ∈ p.demands, row.length = p.horizon)
    (hlen : p.demands.length = p.n_items)
    (hfeas : ∀ u, unitsUpTo p.demands u ≤ u + 1) :
    (sweepAux (metaInput p membership i)).1.sum = clusterUnits p membership i 0 := by
  have hleft : (sweepAux (metaInput p membership i)).2 ≤ 0 :=
    sweepAux_leftover_le _ 0 (fun m hm => by
      simpa using metaInput_take_le p membership i hlen hfeas m hm)
  have h1 := sweepAux_sum_add (metaInput p membership i)
  have h2 := metaInput_drop_sum p membership i hrows 0
  rw [List.drop_zero] at h2
  omega

/-- The reverse-count index row built for a 0/1 demand row whose total is
below the row length: the build succeeds, every count between 1 and the
total is recorded with a non-negative period, the recorded period for
the suffix count at a demand position is that position, and count 0 is
never recorded. -/
theorem metaRow_reverse_index (d : List ℕ) (h01 : ∀ x ∈ d, x ≤ 1)
    (hD : d.sum < d.length) :
    ∃ w, rdtpdRow d.length
        ((List.range d.length).map (fun t => prevDemandAt d t))
        ((List.range d.length).map (fun t => (d.drop t).sum)) = some w ∧
      w.length = d.length ∧
      (∀ r, 1 ≤ r → r ≤ d.sum → 0 ≤ w.getD r 0) ∧
      (∀ p, p < d.length → 0 < d.getD p 0 →
        w.getD ((d.drop p).sum) 0 = Int.ofNat p) ∧
      w.getD 0 0 = -1 := by
  have hmemPrev : ∀ q ∈ (List.range d.length).map (fun t => prevDemandAt d t),
      0 ≤ q → ∃ pq : ℕ, q = Int.ofNat pq ∧ 0 < d.getD pq 0 := by
    intro q hq hq0
    rcases List.mem_map.1 hq with ⟨t, _, rfl⟩
    rcases prevDemandAt_cases d t with hc | ⟨pq, hpq, _, hdq⟩
    · rw [hc] at hq0
      omega
    · exact ⟨pq, hpq, hdq⟩
  have hb : ∀ q ∈ (List.range d.length).map (fun t => prevDemandAt d t),
      0 ≤ q →
      ((List.range d.length).map (fun t => (d.drop t).sum)).getD q.toNat 0 <
        d.length := by
    intro q hq hq0
    rcases hmemPrev q hq hq0 with ⟨pq, rfl, hdq⟩
    rw [show (Int.ofNat pq).toNat = pq from rfl, remRow_getD]
    exact lt_of_le_of_lt (drop_sum_le d pq) hD
  rcases rdtpdRow_char d.length _ _ hb with ⟨w, hw, hwlen, hchar⟩
  have hdrop_pos : ∀ p : ℕ, 0 < d.getD p 0 → 1 ≤ (d.drop p).sum := by
    intro p hp
    have := drop_sum_eq d p
    omega
  have hval : ∀ p, p < d.length → 0 < d.getD p 0 →
      w.getD ((d.drop p).sum) 0 = Int.ofNat p := by
    intro p hp hdp
    apply (hchar ((d.drop p).sum)).2 (fun z => z = Int.ofNat p)
    · refine ⟨Int.ofNat p, ?_, Int.ofNat_nonneg p, ?_⟩
      · exact List.mem_map.2 ⟨p, List.mem_range.2 hp, prevDemandAt_self d p hdp⟩
      · rw [show (Int.ofNat p).toNat = p from rfl, remRow_getD]
    · intro q hq hq0 hqr
      rcases hmemPrev q hq hq0 with ⟨pq, rfl, hdq⟩
      rw [show (Int.ofNat pq).toNat = pq from rfl, remRow_getD] at hqr
      have hpq : pq = p := by
        by_contra hne
        rcases Nat.lt_or_ge pq p with hlt | hge
        · have := drop_sum_strict d pq p hlt hdq
          omega
        · have hlt2 : p < pq := by omega
          have := drop_sum_strict d p pq hlt2 hdp
          omega
      rw [hpq]
  refine ⟨w, hw, hwlen, ?_, hval, ?_⟩
  · intro r h1 h2
    rcases sum_drop_surj d h01 r h1 h2 with ⟨p, hp, hdp, hs⟩
    rw [← hs, hval p hp hdp]
    exact Int.ofNat_nonneg p
  · have h0 : w.getD 0 0 = (List.replicate d.length (-1 : ℤ)).getD 0 0 := by
      apply (hchar 0).1
      intro q hq hq0 hqr
      rcases hmemPrev q hq hq0 with ⟨pq, rfl, hdq⟩
      rw [show (Int.ofNat pq).toNat = pq from rfl, remRow_getD] at hqr
      have := hdrop_pos pq hdq
      omega
    rw [h0, getD_replicate_self _ _ _ _ (by omega)]

theorem range_getD (k i : ℕ) (hi : i < k) : (List.range k).getD i 0 = i := by
  rw [List.getD_eq_getElem _ _ (by simpa using hi), List.getElem_range]

/-- Successful construction of the compression: when every meta-item's
total member demand is below the horizon, `PspCompression::new` builds
the compression, and the reverse-count index rows have the recorded
period properties of `metaRow_reverse_index`. -/
theorem new_some (p : Psp) (membership : List ℕ) (k : ℕ)
    (hrows : ∀ row ∈ p.demands, row.length = p.horizon)
    (hcluster : ∀ a, a < k → clusterUnits p membership a 0 < p.horizon) :
    ∃ c, PspCompression.new p membership k = some c ∧
      c.problem = p ∧
      c.membership = membership ∧
      c.meta_problem.n_items = k ∧
      c.meta_problem.horizon = p.horizon ∧
      c.meta_problem.demands = computeMetaDemands p membership k ∧
      c.meta_problem.stocking = computeMetaStocking p membership k ∧
      c.meta_problem.changeover = computeMetaChangeover p membership k ∧
      c.rem_demand_to_prev_demand.length = k ∧
      ∀ a, a < k →
        (c.rem_demand_to_prev_demand.getD a []).length = p.horizon ∧
        (∀ r, 1 ≤ r → r ≤ (sweepAux (metaInput p membership a)).1.sum →
          0 ≤ (c.rem_demand_to_prev_demand.getD a []).getD r 0) ∧
        (∀ q, q < p.horizon →
          0 < (sweepAux (metaInput p membership a)).1.getD q 0 →
          (c.rem_demand_to_prev_demand.getD a []).getD
            (((sweepAux (metaInput p membership a)).1.drop q).sum) 0 = Int.ofNat q) ∧
        (c.rem_demand_to_prev_demand.getD a []).getD 0 0 = -1 := by
  set dm := computeMetaDemands p membership k with hdm
  set meta : Psp :=
    { n_items := k
      horizon := p.horizon
      stocking := computeMetaStocking p membership k
      changeover := computeMetaChangeover p membership k
      demands := dm
      prev_demands := computePrevDemands dm
      rem_demands := computeRemDemands dm } with hmeta
  have hdmlen : dm.length = k := computeMetaDemands_length p membership k
  have hrow : ∀ a, a < k → dm.getD a [] = (sweepAux (metaInput p membership a)).1 :=
    fun a ha => computeMetaDemands_getD p membership k a ha
  have hrowlen : ∀ a, a < k → (dm.getD a []).length = p.horizon := by
    intro a ha
    rw [hrow a ha]
    exact metaRow_length p membership a
  have hrow01 : ∀ a, a < k → ∀ x ∈ dm.getD a [], x ≤ 1 := by
    intro a ha x hx
    rw [hrow a ha] at hx
    exact sweepAux_mem _ x hx
  have hrowsum : ∀ a, a < k → (dm.getD a []).sum < (dm.getD a []).length := by
    intro a ha
    rw [hrow a ha, metaRow_length p membership a]
    exact lt_of_le_of_lt (metaRow_sum_le p membership a hrows) (hcluster a ha)
  have hrowidx : ∀ a, a < k →
      ∃ w, rdtpdRow meta.horizon (meta.prev_demands.getD a [])
          (meta.rem_demands.getD a []) = some w ∧
        w.length = (dm.getD a []).length ∧
        (∀ r, 1 ≤ r → r ≤ (dm.getD a []).sum → 0 ≤ w.getD r 0) ∧
        (∀ q, q < (dm.getD a []).length → 0 < (dm.getD a []).getD q 0 →
          w.getD (((dm.getD a []).drop q).sum) 0 = Int.ofNat q) ∧
        w.getD 0 0 = -1 := by
    intro a ha
    have h1 : meta.prev_demands.getD a [] =
        (List.range (dm.getD a []).length).map
          (fun t => prevDemandAt (dm.getD a []) t) :=
      computePrevDemands_getD dm a (by omega)
    have h2 : meta.rem_demands.getD a [] =
        (List.range (dm.getD a []).length).map
          (fun t => ((dm.getD a []).drop t).sum) :=
      computeRemDemands_getD dm a (by omega)
    have h3 : meta.horizon = (dm.getD a []).length := (hrowlen a ha).symm
    rw [h1, h2, h3]
    exact metaRow_reverse_index (dm.getD a []) (hrow01 a ha) (hrowsum a ha)
  have hsome : ∀ i ∈ List.range k,
      (rdtpdRow meta.horizon (meta.prev_demands.getD i [])
        (meta.rem_demands.getD i [])).isSome := by
    intro i hi
    rcases hrowidx i (List.mem_range.1 hi) with ⟨w, hw, _⟩
    rw [hw]
    rfl
  rcases mapM_some_getD
    (fun i => rdtpdRow meta.horizon (meta.prev_demands.getD i [])
      (meta.rem_demands.getD i [])) [] (List.range k) hsome with ⟨W, hW, hWlen, hWget⟩
  have hbuild : computeRemDemandToPrevDemand meta = some W := by
    unfold computeRemDemandToPrevDemand
    exact hW
  have hWget2 : ∀ a, a < k →
      rdtpdRow meta.horizon (meta.prev_demands.getD a [])
        (meta.rem_demands.getD a []) = some (W.getD a []) := by
    intro a ha
    have := hWget a (by simpa using ha)
    rwa [range_getD k a ha] at this
  refine ⟨(⟨p, meta, membership, W⟩ : PspCompression), ?_, rfl, rfl, rfl, rfl,
    rfl, rfl, rfl, by rw [hWlen, List.length_range], ?_⟩
  · show (computeRemDemandToPrevDemand meta).map _ = _
    rw [hbuild]
    rfl
  · intro a ha
    rcases hrowidx a ha with ⟨w, hw, hwlen, hrec, hvals, h0⟩
    have hwa : W.getD a [] = w := by
      have := hWget2 a ha
      rw [hw] at this
      exact (Option.some.inj this).symm
    refine ⟨?_, ?_, ?_, ?_⟩
    · rw [hwa, hwlen, hrowlen a ha]
    · intro r h1 h2
      rw [hwa]
      apply hrec r h1
      rw [hrow a ha]
      exact h2
    · intro q hq hdq
      rw [hwa, ← hrow a ha]
      apply hvals q
      · rw [hrowlen a ha]
        exact hq
      · rw [hrow a ha]
        exact hdq
    · rw [hwa]
      exact h0

/-! ## Reachable-state invariants of the search model -/

theorem earliestDemand_cases (row : List ℕ) (t : ℕ) :
    earliestDemand row t = -1 ∨
      ∃ p : ℕ, earliestDemand row t = Int.ofNat p ∧ t ≤ p ∧ p < row.length ∧
        0 < row.getD p 0 := by
  unfold earliestDemand
  cases hf : (List.range row.length).find?
      (fun p => decide (t ≤ p) && decide (0 < row.getD p 0)) with
  | none => left; rfl
  | some p =>
    right
    have hpred := List.find?_some hf
    have hmem := List.mem_of_find?_eq_some hf
    rw [Bool.and_eq_true, decide_eq_true_eq, decide_eq_true_eq] at hpred
    exact ⟨p, rfl, hpred.1, List.mem_range.1 hmem, hpred.2⟩

theorem domain_mem (p : Psp) (s : PspState) (d : ℤ) (h : d ∈ domain p s) :
    d = IDLE ∨ ∃ j : ℕ, d = Int.ofNat j ∧ j < p.n_items := by
  unfold domain at h
  by_cases ht : s.time < p.horizon
  · rw [if_pos ht] at h
    have h2 := List.mem_filter.1 h
    rcases List.mem_cons.1 h2.1 with rfl | h3
    · left; rfl
    · rcases List.mem_map.1 h3 with ⟨j, hj, rfl⟩
      exact Or.inr ⟨j, rfl, List.mem_range.1 hj⟩
  · rw [if_neg ht] at h
    cases h

theorem transition_time (p : Psp) (s : PspState) (d : ℤ) :
    (transition p s d).time = s.time + 1 := rfl

theorem transition_next (p : Psp) (s : PspState) (d : ℤ) :
    (transition p s d).next = d := rfl

theorem transition_prev (p : Psp) (s : PspState) (d : ℤ) :
    (transition p s d).prev_demands =
      if d = IDLE then s.prev_demands
      else s.prev_demands.set d.toNat
        (earliestDemand (p.demands.getD d.toNat [])
          ((s.prev_demands.getD d.toNat (-1)).toNat + 1)) := rfl

theorem initialState_prev (p : Psp) :
    (initialState p).prev_demands =
      (List.range p.n_items).map (fun i => earliestDemand (p.demands.getD i []) 0) := rfl

/-- The invariant of every reachable state: the pointer vector has one
entry per item, the predecessor is idle or a valid item, and each live
pointer is a demand period of its item. -/
theorem reachable_inv (p : Psp)
    (s : PspState) (h : Reachable p s) :
    s.prev_demands.length = p.n_items ∧
    (s.next = IDLE ∨ 0 ≤ s.next ∧ s.next.toNat < p.n_items) ∧
    ∀ i, i < p.n_items →
      s.prev_demands.getD i 0 = -1 ∨
      (0 ≤ s.prev_demands.getD i 0 ∧
        (s.prev_demands.getD i 0).toNat < (p.demands.getD i []).length ∧
        0 < (p.demands.getD i []).getD (s.prev_demands.getD i 0).toNat 0) := by
  induction h with
  | init =>
    refine ⟨by rw [initialState_prev, List.length_map, List.length_range],
      Or.inl rfl, ?_⟩
    intro i hi
    have hgi : (initialState p).prev_demands.getD i 0 =
        earliestDemand (p.demands.getD i []) 0 := by
      rw [initialState_prev, List.getD_eq_getElem _ _ (by simpa using hi),
        List.getElem_map, List.getElem_range]
    rw [hgi]
    rcases earliestDemand_cases (p.demands.getD i []) 0 with hc | ⟨q, hq, _, hqlen, hqd⟩
    · left; exact hc
    · right
      rw [hq]
      refine ⟨Int.ofNat_nonneg q, ?_, ?_⟩
      · rw [show (Int.ofNat q).toNat = q from rfl]
        exact hqlen
      · rw [show (Int.ofNat q).toNat = q from rfl]
        exact hqd
  | step hs hd ih =>
    rename_i s0 d
    rcases ih with ⟨hlen, _, hptr⟩
    rcases domain_mem p s0 d hd with rfl | ⟨j, rfl, hj⟩
    · refine ⟨?_, Or.inl (transition_next p s0 IDLE), ?_⟩
      · rw [transition_prev, if_pos rfl]
        exact hlen
      · intro i hi
        rw [transition_prev, if_pos rfl]
        exact hptr i hi
    · have hne : Int.ofNat j ≠ IDLE := by
        show (j : ℤ) ≠ IDLE
        unfold IDLE
        omega
      refine ⟨?_, ?_, ?_⟩
      · rw [transition_prev, if_neg hne, List.length_set]
        exact hlen
      · right
        rw [transition_next]
        exact ⟨Int.ofNat_nonneg j, by rw [show (Int.ofNat j).toNat = j from rfl]; exact hj⟩
      · intro i hi
        rw [transition_prev, if_neg hne]
        by_cases hij : (Int.ofNat j).toNat = i
        · rw [← hij, getD_set_self _ _ _ _ (by rw [hlen, hij]; exact hi)]
          rcases earliestDemand_cases (p.demands.getD (Int.ofNat j).toNat [])
              ((s0.prev_demands.getD (Int.ofNat j).toNat (-1)).toNat + 1) with
            hc | ⟨q, hq, _, hqlen, hqd⟩
          · left; exact hc
          · right
            rw [hq]
            refine ⟨Int.ofNat_nonneg q, ?_, ?_⟩
            · rw [show (Int.ofNat q).toNat = q from rfl]
              exact hqlen
            · rw [show (Int.ofNat q).toNat = q from rfl]
              exact hqd
        · rw [getD_set_ne _ _ _ _ _ hij]
          exact hptr i hi

/-! ## The aggregation loop of `compress` -/

theorem membershipLookup_ofNat (membership : List ℕ) (i : ℕ)
    (hi : i < membership.length) :
    membershipLookup membership (Int.ofNat i) =
      some (Int.ofNat (membership.getD i 0)) := by
  unfold membershipLookup
  rw [if_neg (show ¬(Int.ofNat i = IDLE) by
      show ¬((i : ℤ) = IDLE)
      unfold IDLE
      omega),
    if_pos ⟨Int.ofNat_nonneg i, by show i < membership.length; exact hi⟩]
  rfl

theorem metaRem_fold (c : PspCompression) (s : PspState) :
    ∀ (l : List ℕ) (acc : List ℕ),
      acc.length = c.meta_problem.n_items →
      (∀ i ∈ l, i < c.membership.length) →
      (∀ i ∈ l, c.membership.getD i 0 < c.meta_problem.n_items) →
      (∀ i ∈ l, 0 ≤ s.prev_demands.getD i 0 →
        i < c.problem.rem_demands.length ∧
        (s.prev_demands.getD i 0).toNat <
          (c.problem.rem_demands.getD i []).length) →
      l.foldlM (fun (acc : List ℕ) i =>
        let prev := s.prev_demands.getD i 0
        if 0 ≤ prev then
          (membershipLookup c.membership (Int.ofNat i)).bind (fun j =>
            if j.toNat < acc.length then
              if i < c.problem.rem_demands.length then
                if prev.toNat < (c.problem.rem_demands.getD i []).length then
                  some (acc.set j.toNat
                    (acc.getD j.toNat 0 +
                      (c.problem.rem_demands.getD i []).getD prev.toNat 0))
                else none
              else none
            else none)
        else some acc) acc =
      some (scatterAdd (l.filterMap (fun i =>
        if 0 ≤ s.prev_demands.getD i 0 then
          some (c.membership.getD i 0,
            (c.problem.rem_demands.getD i []).getD
              (s.prev_demands.getD i 0).toNat 0)
        else none)) acc) := by
  intro l
  induction l with
  | nil => intro acc _ _ _ _; rfl
  | cons i l ih =>
    intro acc hacclen hmlen hmval hbounds
    rw [List.foldlM_cons]
    dsimp only
    by_cases hp : 0 ≤ s.prev_demands.getD i 0
    · have hstep : (if 0 ≤ s.prev_demands.getD i 0 then
          (membershipLookup c.membership (Int.ofNat i)).bind (fun j =>
            if j.toNat < acc.length then
              if i < c.problem.rem_demands.length then
                if (s.prev_demands.getD i 0).toNat <
                    (c.problem.rem_demands.getD i []).length then
                  some (acc.set j.toNat
                    (acc.getD j.toNat 0 +
                      (c.problem.rem_demands.getD i []).getD
                        (s.prev_demands.getD i 0).toNat 0))
                else none
              else none
            else none)
        else some acc) =
          some (acc.set (c.membership.getD i 0)
            (acc.getD (c.membership.getD i 0) 0 +
              (c.problem.rem_demands.getD i []).getD
                (s.prev_demands.getD i 0).toNat 0)) := by
        rw [if_pos hp, membershipLookup_ofNat c.membership i
          (hmlen i (List.mem_cons_self _ _)), Option.some_bind]
        rw [if_pos (by
          show (Int.ofNat (c.membership.getD i 0)).toNat < acc.length
          rw [show (Int.ofNat (c.membership.getD i 0)).toNat =
            c.membership.getD i 0 from rfl, hacclen]
          exact hmval i (List.mem_cons_self _ _))]
        rw [if_pos (hbounds i (List.mem_cons_self _ _) hp).1,
          if_pos (hbounds i (List.mem_cons_self _ _) hp).2]
        rfl
      rw [hstep, List.filterMap_cons]
      simp only [if_pos hp]
      rw [scatterAdd_cons]
      exact ih _ (by rw [List.length_set]; exact hacclen)
        (fun q hq => hmlen q (List.mem_cons_of_mem _ hq))
        (fun q hq => hmval q (List.mem_cons_of_mem _ hq))
        (fun q hq => hbounds q (List.mem_cons_of_mem _ hq))
    · have hstep : (if 0 ≤ s.prev_demands.getD i 0 then
          (membershipLookup c.membership (Int.ofNat i)).bind (fun j =>
            if j.toNat < acc.length then
              if i < c.problem.rem_demands.length then
                if (s.prev_demands.getD i 0).toNat <
                    (c.problem.rem_demands.getD i []).length then
                  some (acc.set j.toNat
                    (acc.getD j.toNat 0 +
                      (c.problem.rem_demands.getD i []).getD
                        (s.prev_demands.getD i 0).toNat 0))
                else none
              else none
            else none)
        else some acc) = some acc := by
        rw [if_neg hp]
      rw [hstep, List.filterMap_cons]
      simp only [if_neg hp]
      exact ih _ hacclen
        (fun q hq => hmlen q (List.mem_cons_of_mem _ hq))
        (fun q hq => hmval q (List.mem_cons_of_mem _ hq))
        (fun q hq => hbounds q (List.mem_cons_of_mem _ hq))

theorem metaRemCounts_eq_fold (c : PspCompression) (s : PspState) :
    c.metaRemCounts s =
      (List.range s.prev_demands.length).foldlM (fun (acc : List ℕ) i =>
        let prev := s.prev_demands.getD i 0
        if 0 ≤ prev then
          (membershipLookup c.membership (Int.ofNat i)).bind (fun j =>
            if j.toNat < acc.length then
              if i < c.problem.rem_demands.length then
                if prev.toNat < (c.problem.rem_demands.getD i []).length then
                  some (acc.set j.toNat
                    (acc.getD j.toNat 0 +
                      (c.problem.rem_demands.getD i []).getD prev.toNat 0))
                else none
              else none
            else none)
        else some acc) (List.replicate c.meta_problem.n_items 0) := rfl

theorem metaRemCounts_some (c : PspCompression) (s : PspState)
    (hslen : s.prev_demands.length ≤ c.membership.length)
    (hmemval : ∀ j ∈ c.membership, j < c.meta_problem.n_items)
    (hbounds : ∀ i, i < s.prev_demands.length → 0 ≤ s.prev_demands.getD i 0 →
      i < c.problem.rem_demands.length ∧
      (s.prev_demands.getD i 0).toNat <
        (c.problem.rem_demands.getD i []).length) :
    ∃ r, c.metaRemCounts s = some r ∧ r.length = c.meta_problem.n_items ∧
      ∀ a, a < c.meta_problem.n_items →
        r.getD a 0 =
          ((((List.range s.prev_demands.length).filterMap (fun i =>
            if 0 ≤ s.prev_demands.getD i 0 then
              some (c.membership.getD i 0,
                (c.problem.rem_demands.getD i []).getD
                  (s.prev_demands.getD i 0).toNat 0)
            else none)).filter (fun q => q.1 = a)).map Prod.snd).sum := by
  have hmlen : ∀ i ∈ List.range s.prev_demands.length, i < c.membership.length := by
    intro i hi
    have := List.mem_range.1 hi
    omega
  have hmval : ∀ i ∈ List.range s.prev_demands.length,
      c.membership.getD i 0 < c.meta_problem.n_items := by
    intro i hi
    have h1 : i < c.membership.length := hmlen i hi
    rw [List.getD_eq_getElem _ _ h1]
    exact hmemval _ (List.getElem_mem h1)
  have hfold := metaRem_fold c s (List.range s.prev_demands.length)
    (List.replicate c.meta_problem.n_items 0)
    (List.length_replicate _ _)
    hmlen hmval
    (fun i hi hp => hbounds i (List.mem_range.1 hi) hp)
  rw [metaRemCounts_eq_fold, hfold]
  refine ⟨_, rfl, by rw [scatterAdd_length, List.length_replicate], ?_⟩
  intro a ha
  rw [scatterAdd_getD _ _ a (by rw [List.length_replicate]; exact ha),
    getD_replicate_self _ _ _ _ ha]
  omega

theorem membershipLookup_nonneg (membership : List ℕ) (x : ℤ) (h0 : 0 ≤ x)
    (hlt : x.toNat < membership.length) :
    membershipLookup membership x =
      some (Int.ofNat (membership.getD x.toNat 0)) := by
  unfold membershipLookup
  rw [if_neg (by unfold IDLE; omega), if_pos ⟨h0, hlt⟩]

/-- Evaluation of `compress` once the aggregated counts are known and
every reverse-index lookup is in bounds. -/
theorem compress_some (c : PspCompression) (s : PspState) (r : List ℕ)
    (hr : c.metaRemCounts s = some r)
    (hlook : ∀ a, a < r.length →
      r.getD a 0 < (c.rem_demand_to_prev_demand.getD a []).length)
    (hnext : s.next = IDLE ∨ (0 ≤ s.next ∧ s.next.toNat < c.membership.length)) :
    ∃ s2, c.compress s = some s2 ∧ s2.time = s.time ∧
      s2.prev_demands.length = r.length ∧
      (s2.next = IDLE ↔ s.next = IDLE) ∧
      (∀ j : ℕ, s.next = Int.ofNat j → j < c.membership.length →
        s2.next = Int.ofNat (c.membership.getD j 0)) ∧
      ∀ a, a < r.length →
        s2.prev_demands.getD a 0 =
          (c.rem_demand_to_prev_demand.getD a []).getD (r.getD a 0) 0 := by
  have hsome : ∀ i ∈ List.range r.length,
      ((fun i =>
        if r.getD i 0 < (c.rem_demand_to_prev_demand.getD i []).length then
          some ((c.rem_demand_to_prev_demand.getD i []).getD (r.getD i 0) 0)
        else none) i).isSome := by
    intro i hi
    dsimp only
    rw [if_pos (hlook i (List.mem_range.1 hi))]
    rfl
  rcases mapM_some_getD _ (0 : ℤ) (List.range r.length) hsome with
    ⟨prev2, hprev2, hlen2, hget2⟩
  have hnext2 : ∃ nx, (if s.next = IDLE then some IDLE
      else membershipLookup c.membership s.next) = some nx ∧
      (nx = IDLE ↔ s.next = IDLE) ∧
      (∀ j : ℕ, s.next = Int.ofNat j → j < c.membership.length →
        nx = Int.ofNat (c.membership.getD j 0)) := by
    rcases hnext with hidle | ⟨h0, hlt⟩
    · rw [if_pos hidle]
      refine ⟨IDLE, rfl, by constructor <;> intro <;> [exact hidle; rfl], ?_⟩
      intro j hj _
      rw [hidle] at hj
      exact absurd hj (by
        show IDLE ≠ ((j : ℕ) : ℤ)
        unfold IDLE
        omega)
    · have hne : ¬(s.next = IDLE) := by
        unfold IDLE
        omega
      rw [if_neg hne, membershipLookup_nonneg c.membership s.next h0 hlt]
      refine ⟨_, rfl, ?_, ?_⟩
      · constructor
        · intro hc
          exact absurd hc (by
            show (((c.membership.getD s.next.toNat 0) : ℕ) : ℤ) ≠ IDLE
            unfold IDLE
            omega)
        · intro hc
          exact absurd hc hne
      · intro j hj _
        have htn : s.next.toNat = j := by
          rw [hj]
          rfl
        rw [htn]
  rcases hnext2 with ⟨nx, hnx, hnxiff, hnxlab⟩
  have hcompress : c.compress s = some ⟨s.time, nx, prev2⟩ := by
    unfold PspCompression.compress
    rw [hr, Option.some_bind]
    have hmapm : (List.range r.length).mapM (fun i =>
        if r.getD i 0 < (c.rem_demand_to_prev_demand.getD i []).length then
          some ((c.rem_demand_to_prev_demand.getD i []).getD (r.getD i 0) 0)
        else none) = some prev2 := hprev2
    rw [show ((List.range r.length).mapM (fun i =>
        let rr := r.getD i 0
        if rr < (c.rem_demand_to_prev_demand.getD i []).length then
          some ((c.rem_demand_to_prev_demand.getD i []).getD rr 0)
        else none)) = some prev2 from hmapm, Option.some_bind, hnx]
    rfl
  refine ⟨⟨s.time, nx, prev2⟩, hcompress, rfl, by rw [hlen2, List.length_range],
    hnxiff, hnxlab, ?_⟩
  intro a ha
  have := hget2 a (by simpa using ha)
  rw [range_getD _ a ha, if_pos (hlook a ha)] at this
  exact (Option.some.inj this).symm

theorem metaRem_filter_eq (c : PspCompression) (s : PspState) (a : ℕ) :
    ∀ l : List ℕ,
      (((l.filterMap (fun i =>
        if 0 ≤ s.prev_demands.getD i 0 then
          some (c.membership.getD i 0,
            (c.problem.rem_demands.getD i []).getD
              (s.prev_demands.getD i 0).toNat 0)
        else none)).filter (fun q => q.1 = a)).map Prod.snd) =
      (l.filter (fun i => 0 ≤ s.prev_demands.getD i 0 ∧
        c.membership.getD i 0 = a)).map
        (fun i => (c.problem.rem_demands.getD i []).getD
          (s.prev_demands.getD i 0).toNat 0) := by
  intro l
  induction l with
  | nil => rfl
  | cons i l ih =>
    rw [List.filterMap_cons]
    by_cases hp : 0 ≤ s.prev_demands.getD i 0
    · simp only [if_pos hp]
      by_cases hq : c.membership.getD i 0 = a
      · have hL : (((c.membership.getD i 0,
            (c.problem.rem_demands.getD i []).getD
              (s.prev_demands.getD i 0).toNat 0) ::
            l.filterMap (fun i =>
              if 0 ≤ s.prev_demands.getD i 0 then
                some (c.membership.getD i 0,
                  (c.problem.rem_demands.getD i []).getD
                    (s.prev_demands.getD i 0).toNat 0)
              else none)).filter (fun q => q.1 = a)).map Prod.snd =
            (c.problem.rem_demands.getD i []).getD
              (s.prev_demands.getD i 0).toNat 0 ::
            ((l.filterMap (fun i =>
              if 0 ≤ s.prev_demands.getD i 0 then
                some (c.membership.getD i 0,
                  (c.problem.rem_demands.getD i []).getD
                    (s.prev_demands.getD i 0).toNat 0)
              else none)).filter (fun q => q.1 = a)).map Prod.snd := by
          rw [List.filter_cons, if_pos (by simpa using hq), List.map_cons]
        have hR : ((i :: l).filter (fun i => 0 ≤ s.prev_demands.getD i 0 ∧
            c.membership.getD i 0 = a)).map
            (fun i => (c.problem.rem_demands.getD i []).getD
              (s.prev_demands.getD i 0).toNat 0) =
            (c.problem.rem_demands.getD i []).getD
              (s.prev_demands.getD i 0).toNat 0 ::
            (l.filter (fun i => 0 ≤ s.prev_demands.getD i 0 ∧
              c.membership.getD i 0 = a)).map
              (fun i => (c.problem.rem_demands.getD i []).getD
                (s.prev_demands.getD i 0).toNat 0) := by
          rw [List.filter_cons,
            if_pos (by simp only [decide_eq_true_eq]; exact ⟨hp, hq⟩),
            List.map_cons]
        rw [hL, hR, ih]
      · have hL : ((c.membership.getD i 0,
            (c.problem.rem_demands.getD i []).getD
              (s.prev_demands.getD i 0).toNat 0) ::
            l.filterMap (fun i =>
              if 0 ≤ s.prev_demands.getD i 0 then
                some (c.membership.getD i 0,
                  (c.problem.rem_demands.getD i []).getD
                    (s.prev_demands.getD i 0).toNat 0)
              else none)).filter (fun q => q.1 = a) =
            (l.filterMap (fun i =>
              if 0 ≤ s.prev_demands.getD i 0 then
                some (c.membership.getD i 0,
                  (c.problem.rem_demands.getD i []).getD
                    (s.prev_demands.getD i 0).toNat 0)
              else none)).filter (fun q => q.1 = a) := by
          rw [List.filter_cons, if_neg (by simpa using hq)]
        have hR : (i :: l).filter (fun i => 0 ≤ s.prev_demands.getD i 0 ∧
            c.membership.getD i 0 = a) =
            l.filter (fun i => 0 ≤ s.prev_demands.getD i 0 ∧
              c.membership.getD i 0 = a) := by
          rw [List.filter_cons, if_neg (by
            simp only [decide_eq_true_eq]
            intro hc
            exact hq hc.2)]
        rw [hL, hR, ih]
    · simp only [if_neg hp]
      have hR : (i :: l).filter (fun i => 0 ≤ s.prev_demands.getD i 0 ∧
          c.membership.getD i 0 = a) =
          l.filter (fun i => 0 ≤ s.prev_demands.getD i 0 ∧
            c.membership.getD i 0 = a) := by
        rw [List.filter_cons, if_neg (by
          simp only [decide_eq_true_eq]
          intro hc
          exact hp hc.1)]
      rw [hR, ih]

theorem metaRem_le_clusterUnits (p : Psp) (membership : List ℕ) (s : PspState)
    (c : PspCompression) (hprob : c.problem = p) (hmem : c.membership = membership)
    (hremp : p.rem_demands = computeRemDemands p.demands)
    (hslen : s.prev_demands.length = p.n_items) (a : ℕ) :
    (((List.range s.prev_demands.length).filter
      (fun i => 0 ≤ s.prev_demands.getD i 0 ∧ c.membership.getD i 0 = a)).map
      (fun i => (c.problem.rem_demands.getD i []).getD
        (s.prev_demands.getD i 0).toNat 0)).sum ≤
    clusterUnits p membership a 0 := by
  have hpoint : ∀ i : ℕ,
      (c.problem.rem_demands.getD i []).getD (s.prev_demands.getD i 0).toNat 0 ≤
        (p.demands.getD i []).sum := by
    intro i
    rw [hprob, hremp]
    by_cases hi : i < p.demands.length
    · rw [computeRemDemands_getD p.demands i hi, remRow_getD]
      exact drop_sum_le _ _
    · rw [show (computeRemDemands p.demands).getD i [] = [] from
        List.getD_eq_default _ _ (by
          unfold computeRemDemands
          rw [List.length_map]
          omega)]
      exact Nat.zero_le _
  have hstep1 : (((List.range s.prev_demands.length).filter
      (fun i => 0 ≤ s.prev_demands.getD i 0 ∧ c.membership.getD i 0 = a)).map
      (fun i => (c.problem.rem_demands.getD i []).getD
        (s.prev_demands.getD i 0).toNat 0)).sum ≤
      (((List.range s.prev_demands.length).filter
      (fun i => 0 ≤ s.prev_demands.getD i 0 ∧ c.membership.getD i 0 = a)).map
      (fun i => (p.demands.getD i []).sum)).sum :=
    List.sum_le_sum (fun i _ => hpoint i)
  have hsub : ((List.range s.prev_demands.length).filter
      (fun i => 0 ≤ s.prev_demands.getD i 0 ∧ c.membership.getD i 0 = a)).Sublist
      (clusterItems p.n_items membership a) := by
    unfold clusterItems
    rw [← hslen]
    apply List.monotone_filter_right
    intro i hi
    simp only [decide_eq_true_eq] at hi ⊢
    rw [← hmem]
    exact hi.2
  have hstep2 : (((List.range s.prev_demands.length).filter
      (fun i => 0 ≤ s.prev_demands.getD i 0 ∧ c.membership.getD i 0 = a)).map
      (fun i => (p.demands.getD i []).sum)).sum ≤
      ((clusterItems p.n_items membership a).map
        (fun i => (p.demands.getD i []).sum)).sum :=
    List.Sublist.sum_le_sum (List.Sublist.map _ hsub) (fun _ _ => Nat.zero_le _)
  have hcu : ((clusterItems p.n_items membership a).map
      (fun i => (p.demands.getD i []).sum)).sum = clusterUnits p membership a 0 := by
    unfold clusterUnits
    apply congrArg
    apply List.map_congr_left
    intro j _
    rw [List.drop_zero]
  omega

/-- C1 (amended): for a deadline-feasible instance in which every
meta-item's total member demand is strictly below the horizon, the
compression builds without a panic, and projecting any reachable state
succeeds: every reverse-count lookup is in bounds, a positive
aggregated remaining count always hits a recorded period (never the
`-1` marker), and the `-1` marker appears exactly for meta-items with
zero remaining demand — the legitimate "no open demand" pointer. -/
theorem c1_projection_amended (inst : PspInstance) (membership : List ℕ) (k : ℕ)
    (hd_len : inst.demands.length = inst.nb_types)
    (hd_rows : ∀ row ∈ inst.demands, row.length = inst.nb_periods)
    (hmemlen : membership.length = inst.nb_types)
    (hmemval : ∀ j ∈ membership, j < k)
    (hfeas : deadlineFeasible inst.demands = true)
    (hcluster : ∀ a, a < k →
      clusterUnits (mkPsp inst) membership a 0 < inst.nb_periods) :
    ∃ c, PspCompression.new (mkPsp inst) membership k = some c ∧
      ∀ s, Reachable (mkPsp inst) s →
        ∃ r s2, c.metaRemCounts s = some r ∧ c.compress s = some s2 ∧
          s2.prev_demands.length = k ∧
          (∀ a, a < k → 1 ≤ r.getD a 0 → 0 ≤ s2.prev_demands.getD a 0) ∧
          (∀ a, a < k → r.getD a 0 = 0 → s2.prev_demands.getD a 0 = -1) := by
  set p := mkPsp inst with hp
  rcases new_some p membership k hd_rows hcluster with
    ⟨c, hnew, hprob, hmemb, hkn, hkh, _, _, _, hWlen, hWprops⟩
  refine ⟨c, hnew, ?_⟩
  intro s hreach
  rcases reachable_inv p s hreach with ⟨hslen, hnext, hptr⟩
  have hremlen : p.rem_demands.length = inst.nb_types := by
    show (computeRemDemands inst.demands).length = inst.nb_types
    unfold computeRemDemands
    rw [List.length_map]
    exact hd_len
  rcases metaRemCounts_some c s
    (by rw [hmemb, hslen, hmemlen]; exact le_refl _)
    (by rw [hmemb, hkn]; exact hmemval)
    (by
      intro i hi hp0
      constructor
      · rw [hprob]
        show i < p.rem_demands.length
        rw [hremlen]
        rw [hslen] at hi
        exact hi
      · rw [hprob]
        show (s.prev_demands.getD i 0).toNat < (p.rem_demands.getD i []).length
        have hi2 : i < p.demands.length := by
          show i < inst.demands.length
          rw [hd_len]
          rw [hslen] at hi
          exact hi
        rw [show p.rem_demands = computeRemDemands p.demands from rfl,
          computeRemDemands_getD p.demands i hi2, List.length_map,
          List.length_range]
        rcases hptr i (by rw [← hslen]; exact hi) with hneg | ⟨_, hlt, _⟩
        · rw [hneg] at hp0
          exact absurd hp0 (by norm_num)
        · exact hlt) with ⟨r, hrsome, hrlen, hrval⟩
  have hbound : ∀ a, a < k → r.getD a 0 ≤ clusterUnits p membership a 0 := by
    intro a ha
    rw [hrval a (by rw [hkn]; exact ha), metaRem_filter_eq]
    exact metaRem_le_clusterUnits p membership s c hprob hmemb rfl hslen a
  rcases compress_some c s r hrsome
    (by
      intro a ha
      rw [hrlen, hkn] at ha
      rw [(hWprops a ha).1]
      exact lt_of_le_of_lt (hbound a ha) (hcluster a ha))
    (by
      rcases hnext with hidle | ⟨h0, hlt⟩
      · exact Or.inl hidle
      · right
        rw [hmemb, hmemlen]
        exact ⟨h0, hlt⟩) with ⟨s2, hcompress, _, hs2len, _, _, hgets⟩
  refine ⟨r, s2, hrsome, hcompress, by rw [hs2len, hrlen, hkn], ?_, ?_⟩
  · intro a ha h1
    rw [hgets a (by rw [hrlen, hkn]; exact ha)]
    apply (hWprops a ha).2.1 _ h1
    rw [metaRow_sum_eq p membership a hd_rows hd_len
      (deadlineFeasible_all inst.demands hfeas)]
    exact hbound a ha
  · intro a ha h0
    rw [hgets a (by rw [hrlen, hkn]; exact ha), h0]
    exact (hWprops a ha).2.2.2

/-- C1 is false as stated: counterexamples within its own hypotheses
(total demand at most the horizon, clustering into k = 1 cluster, so
the membership is forced to [0, 0]).  (a) On the feasible instance
`exA`, the reachable state after producing both items projects to the
`-1` marker (the aggregated count 0 has no recorded period).  (b) On
instance `exC` (total demand 2 ≤ 3), the initial state has aggregated
count 2, and the lookup, although in bounds, yields `-1`.  (c) On the
feasible instance `exB` with total demand equal to the horizon, already
the construction of the reverse-count index panics (out-of-bounds
write), modelled by `none`. -/
theorem c1_projection_counterexample :
    (totalUnits exA.demands ≤ exA.nb_periods ∧
      deadlineFeasible exA.demands = true) ∧
    Reachable (mkPsp exA)
      (transition (mkPsp exA) (transition (mkPsp exA) (initialState (mkPsp exA)) 0) 1) ∧
    (PspCompression.new (mkPsp exA) [0, 0] 1).bind
      (fun c => c.compress (transition (mkPsp exA)
        (transition (mkPsp exA) (initialState (mkPsp exA)) 0) 1)) =
      some ⟨2, 0, [-1]⟩ ∧
    (totalUnits exC.demands ≤ exC.nb_periods ∧
      (PspCompression.new (mkPsp exC) [0, 0] 1).bind
        (fun c => c.metaRemCounts (initialState (mkPsp exC))) = some [2] ∧
      (PspCompression.new (mkPsp exC) [0, 0] 1).bind
        (fun c => c.compress (initialState (mkPsp exC))) = some ⟨0, IDLE, [-1]⟩) ∧
    (totalUnits exB.demands ≤ exB.nb_periods ∧
      deadlineFeasible exB.demands = true ∧
      PspCompression.new (mkPsp exB) [0, 0] 1 = none) := by
  refine ⟨by decide, ?_, by decide, by decide, by decide⟩
  exact Reachable.step (Reachable.step Reachable.init (by decide)) (by decide)

/-- Witness for the amended C1 at a concrete feasible instance. -/
theorem c1_projection_amended_witness :
    ∃ c, PspCompression.new (mkPsp exW) [0, 1] 2 = some c ∧
      ∀ s, Reachable (mkPsp exW) s →
        ∃ r s2, c.metaRemCounts s = some r ∧ c.compress s = some s2 ∧
          s2.prev_demands.length = 2 ∧
          (∀ a, a < 2 → 1 ≤ r.getD a 0 → 0 ≤ s2.prev_demands.getD a 0) ∧
          (∀ a, a < 2 → r.getD a 0 = 0 → s2.prev_demands.getD a 0 = -1) :=
  c1_projection_amended exW [0, 1] 2 (by decide) (by decide) (by decide)
    (by decide) (by decide) (by decide)

/-- C5 is false as stated: no `ClusteringDegenerate` check exists.  With
k equal to the item count (a degenerate configuration per the claim),
`PspCompression::new` reports no error, runs the clustering and builds a
compression whose meta problem has k items — the search proceeds. -/
theorem c5_no_degenerate_check_counterexample :
    exW.nb_types ≤ 2 ∧
    (PspCompression.new (mkPsp exW) [0, 1] 2).isSome = true ∧
    (PspCompression.new (mkPsp exW) [0, 1] 2).map
      (fun c => c.meta_problem.n_items) = some 2 := by
  decide

/-- C5 (amended): `PspCompression::new` performs no validation of the
meta-item count: for every k (including k ≥ n) and clustering output,
as long as every cluster's total demand fits below the horizon, the
build succeeds and returns a compression. -/
theorem c5_no_degenerate_check_amended (p : Psp) (membership : List ℕ) (k : ℕ)
    (hrows : ∀ row ∈ p.demands, row.length = p.horizon)
    (hcluster : ∀ a, a < k → clusterUnits p membership a 0 < p.horizon) :
    (PspCompression.new p membership k).isSome = true := by
  rcases new_some p membership k hrows hcluster with ⟨c, hnew, _⟩
  rw [hnew]
  rfl

/-- Witness for the amended C5 with k equal to the item count. -/
theorem c5_no_degenerate_check_amended_witness :
    (PspCompression.new (mkPsp exW) [1, 0] 2).isSome = true :=
  c5_no_degenerate_check_amended (mkPsp exW) [1, 0] 2 (by decide) (by decide)

/-- C10: projection preserves the period and maps the predecessor to
`IDLE` exactly when it was `IDLE`; whenever `compress` returns a state,
its `time` equals the input's `time` and its predecessor is `IDLE` iff
the input's predecessor is. -/
theorem c10_compress_frame (c : PspCompression) (s s2 : PspState)
    (h : c.compress s = some s2) :
    s2.time = s.time ∧ (s2.next = IDLE ↔ s.next = IDLE) := by
  unfold PspCompression.compress at h
  rcases Option.bind_eq_some.1 h with ⟨r, _, h2⟩
  rcases Option.bind_eq_some.1 h2 with ⟨prev2, _, h3⟩
  rcases Option.map_eq_some'.1 h3 with ⟨nx, hnx, hs2⟩
  subst hs2
  refine ⟨rfl, ?_⟩
  by_cases hidle : s.next = IDLE
  · rw [if_pos hidle] at hnx
    constructor
    · intro _
      exact hidle
    · intro _
      exact (Option.some.inj hnx).symm
  · rw [if_neg hidle] at hnx
    constructor
    · intro hc
      unfold membershipLookup at hnx
      by_cases hi : s.next = IDLE
      · exact absurd hi hidle
      · rw [if_neg hi] at hnx
        by_cases hr : 0 ≤ s.next ∧ s.next.toNat < c.membership.length
        · rw [if_pos hr] at hnx
          have hval := Option.some.inj hnx
          rw [← hval] at hc
          exact absurd hc (by
            show (((c.membership.getD s.next.toNat 0) : ℕ) : ℤ) ≠ IDLE
            unfold IDLE
            omega)
        · rw [if_neg hr] at hnx
          cases hnx
    · intro hc
      exact absurd hc hidle

/-- Witness for C10 at a concrete compression and state. -/
theorem c10_compress_frame_witness :
    (⟨0, IDLE, [0, 1]⟩ : PspState).time = 0 ∧
    ((⟨0, IDLE, [0, 1]⟩ : PspState).next = IDLE ↔
      (initialState (mkPsp exW)).next = IDLE) :=
  c10_compress_frame
    ((PspCompression.new (mkPsp exW) [0, 1] 2).getD
      ⟨mkPsp exW, mkPsp exW, [], []⟩)
    (initialState (mkPsp exW)) ⟨0, IDLE, [0, 1]⟩ (by decide)

/-- C8: building the compression is deterministic.  In this embedding
`PspCompression::new` is a pure function of the problem, the clustering
output and the meta-item count, so two invocations on the same inputs
agree; moreover the clustering call is made with the fixed seed
`Some(0)` and the fixed iteration cap `1000` for every `kmeans`
implementation, problem and meta-item count. -/
theorem c8_build_deterministic :
    ∀ (kmeansImpl : KmeansFn) (p : Psp) (k : ℕ),
      PspCompression.newWithKmeans kmeansImpl p k =
        PspCompression.newWithKmeans kmeansImpl p k ∧
      PspCompression.newWithKmeans kmeansImpl p k =
        PspCompression.new p (kmeansImpl k (some 0) (itemFeatures p) 1000) k :=
  fun _ _ _ => ⟨rfl, rfl⟩

/-- C4: on the infeasible spec scenario B (two demand units, one
period), the spec-modelled engine finds no complete decision sequence,
so its completion carries `best_value = None`; `Solve::solve` computes
the `isize::MAX` sentinel (line 174) but then calls
`best_solution().unwrap()` (line 177), which panics (`none`) instead of
reporting the sentinel — no `InfeasibleInstance` error exists in the
code. -/
theorem c4_infeasible_unwrap_panic :
    totalUnits scB.demands = 2 ∧ scB.nb_periods = 1 ∧
    engineSolutions (mkPsp scB) = [] ∧
    ((none : Option ℤ).map (fun v => -v)).getD isizeMax = isizeMax ∧
    solveReport none none = none := by
  decide

/-! ## Instance loading -/

theorem getField_cons_hit (name : String) (v : Json) (rest : List (String × Json)) :
    (Json.obj ((name, v) :: rest)).getField name = some v := by
  unfold Json.getField
  dsimp only
  rw [List.find?_cons_of_pos _ (by simp)]
  rfl

theorem getField_cons_miss (n1 n2 : String) (v : Json) (rest : List (String × Json))
    (h : ¬(n1 = n2)) :
    (Json.obj ((n1, v) :: rest)).getField n2 = (Json.obj rest).getField n2 := by
  unfold Json.getField
  dsimp only
  rw [List.find?_cons_of_neg _ (by simpa using h)]

theorem decodeUsize_nat (x : ℕ) (hx : x < 2 ^ 64) :
    decodeUsize (.num (x : ℤ)) = some x := by
  unfold decodeUsize
  dsimp only
  rw [if_pos ⟨Int.ofNat_nonneg x, by exact_mod_cast hx⟩, Int.toNat_natCast]

theorem mapM_decodeUsize (l : List ℕ) (hl : ∀ x ∈ l, x < 2 ^ 64) :
    (l.map (fun x : ℕ => Json.num (x : ℤ))).mapM decodeUsize = some l := by
  induction l with
  | nil => rfl
  | cons x xs ih =>
    rw [List.map_cons, List.mapM_cons,
      decodeUsize_nat x (hl x (List.mem_cons_self _ _)),
      ih (fun y hy => hl y (List.mem_cons_of_mem _ hy))]
    rfl

theorem decodeVecUsize_map (l : List ℕ) (hl : ∀ x ∈ l, x < 2 ^ 64) :
    decodeVecUsize (.arr (l.map (fun x : ℕ => Json.num (x : ℤ)))) = some l := by
  unfold decodeVecUsize
  exact mapM_decodeUsize l hl

theorem decodeMatUsize_map (rows : List (List ℕ))
    (hrows : ∀ row ∈ rows, ∀ x ∈ row, x < 2 ^ 64) :
    decodeMatUsize (.arr (rows.map
      (fun row => Json.arr (row.map (fun x : ℕ => Json.num (x : ℤ)))))) = some rows := by
  show (rows.map
      (fun row => Json.arr (row.map (fun x : ℕ => Json.num (x : ℤ))))).mapM
      decodeVecUsize = some rows
  induction rows with
  | nil => rfl
  | cons row rest ih =>
    rw [List.map_cons, List.mapM_cons,
      decodeVecUsize_map row (hrows row (List.mem_cons_self _ _)),
      ih (fun r hr => hrows r (List.mem_cons_of_mem _ hr))]
    rfl

/-- C6 is false as stated: a record whose stocking vector length (1)
disagrees with its declared item count (2) is nevertheless accepted by
the serde-derived loading, and the search starts on it. -/
theorem c6_loading_counterexample :
    PspInstance.fromJson (Json.obj
      [("nb_types", .num 2), ("nb_periods", .num 1),
       ("stocking", .arr [.num 7]),
       ("changeover", .arr [.arr [.num 0]]),
       ("demands", .arr [.arr [.num 0]])]) =
      some ⟨2, 1, [7], [[0]], [[0]]⟩ ∧
    (2 : ℕ) ≠ ([7] : List ℕ).length := by
  constructor
  · rfl
  · decide

/-- C6 (amended): deserialisation checks only the field structure, never
the declared counts — every instance record, also one whose dimensions
disagree with its declared counts, is loaded back successfully, and the
search starts on it.  Loading fails only when the record cannot be
parsed into the five typed fields. -/
theorem c6_loading_amended (inst : PspInstance)
    (h1 : inst.nb_types < 2 ^ 64) (h2 : inst.nb_periods < 2 ^ 64)
    (h3 : ∀ x ∈ inst.stocking, x < 2 ^ 64)
    (h4 : ∀ row ∈ inst.changeover, ∀ x ∈ row, x < 2 ^ 64)
    (h5 : ∀ row ∈ inst.demands, ∀ x ∈ row, x < 2 ^ 64) :
    PspInstance.fromJson (PspInstance.toJson inst) = some inst := by
  unfold PspInstance.fromJson PspInstance.toJson
  rw [getField_cons_hit,
    getField_cons_miss _ _ _ _ (by decide), getField_cons_hit,
    getField_cons_miss _ _ _ _ (by decide),
    getField_cons_miss _ _ _ _ (by decide), getField_cons_hit,
    getField_cons_miss _ _ _ _ (by decide),
    getField_cons_miss _ _ _ _ (by decide),
    getField_cons_miss _ _ _ _ (by decide), getField_cons_hit,
    getField_cons_miss _ _ _ _ (by decide),
    getField_cons_miss _ _ _ _ (by decide),
    getField_cons_miss _ _ _ _ (by decide),
    getField_cons_miss _ _ _ _ (by decide), getField_cons_hit]
  rw [Option.some_bind, Option.some_bind, Option.some_bind, Option.some_bind,
    Option.some_bind]
  rw [decodeUsize_nat _ h1, decodeUsize_nat _ h2,
    decodeVecUsize_map _ h3, decodeMatUsize_map _ h4, decodeMatUsize_map _ h5]
  rfl

theorem c6_loading_amended_witness :
    PspInstance.fromJson (PspInstance.toJson ⟨2, 1, [7], [[0]], [[0]]⟩) =
      some ⟨2, 1, [7], [[0]], [[0]]⟩ :=
  c6_loading_amended ⟨2, 1, [7], [[0]], [[0]]⟩ (by decide) (by decide)
    (by decide) (by decide) (by decide)

/-! ## The generator's demand placement -/

theorem take_set_lt (l : List ℕ) (i a n : ℕ) (h : i < n) :
    (l.set i a).take n = (l.take n).set i a := by
  induction l generalizing i n with
  | nil => simp
  | cons x xs ih =>
    cases i with
    | zero =>
      cases n with
      | zero => omega
      | succ n => simp
    | succ i =>
      cases n with
      | zero => omega
      | succ n =>
        simp only [List.set_cons_succ, List.take_succ_cons, List.cons.injEq,
          true_and]
        exact ih i n (by omega)

theorem take_set_ge (l : List ℕ) (i a n : ℕ) (h : n ≤ i) :
    (l.set i a).take n = l.take n := by
  induction l generalizing i n with
  | nil => simp
  | cons x xs ih =>
    cases n with
    | zero => simp
    | succ n =>
      cases i with
      | zero => omega
      | succ i =>
        simp only [List.set_cons_succ, List.take_succ_cons, List.cons.injEq,
          true_and]
        exact ih i n (by omega)

theorem sum_set_nat (l : List ℕ) (i a : ℕ) (h : i < l.length) :
    (l.set i a).sum + l.getD i 0 = l.sum + a := by
  induction l generalizing i with
  | nil => simp at h
  | cons x xs ih =>
    cases i with
    | zero =>
      simp only [List.set_cons_zero, List.sum_cons, List.getD_cons_zero]
      omega
    | succ i =>
      simp only [List.set_cons_succ, List.sum_cons, List.getD_cons_succ]
      have := ih i (by simpa using Nat.lt_of_succ_lt_succ (by simpa using h))
      omega

theorem getD_take_lt (l : List ℕ) (i n : ℕ) (h : i < n) :
    (l.take n).getD i 0 = l.getD i 0 := by
  simp [List.getD, List.getElem?_take, h]

theorem getD_map_rows (D : List (List ℕ)) (f : List ℕ → ℕ) (t : ℕ)
    (h : t < D.length) :
    (D.map f).getD t 0 = f (D.getD t []) := by
  rw [List.getD_eq_getElem _ _ (by simpa using h), List.getElem_map,
    List.getD_eq_getElem _ _ h]

theorem card_filter_range_le (P u : ℕ) :
    ((Finset.range P).filter (fun a => a ≤ u)).card ≤ u + 1 := by
  calc ((Finset.range P).filter (fun a => a ≤ u)).card
      ≤ (Finset.range (u + 1)).card := Finset.card_le_card (by
        intro x hx
        simp only [Finset.mem_filter, Finset.mem_range] at hx ⊢
        omega)
    _ = u + 1 := Finset.card_range _

theorem unitsUpTo_init (T P u : ℕ) :
    unitsUpTo (genInit T P).demands u = 0 := by
  simp [unitsUpTo, genInit, List.map_replicate, List.take_replicate,
    List.sum_replicate]

theorem unitsUpTo_set (D : List (List ℕ)) (t p u : ℕ)
    (ht : t < D.length) (hp : p < (D.getD t []).length)
    (hval : (D.getD t []).getD p 0 = 0) :
    unitsUpTo (D.set t ((D.getD t []).set p 1)) u =
      if p ≤ u then unitsUpTo D u + 1 else unitsUpTo D u := by
  unfold unitsUpTo
  rw [List.map_set]
  have hlt : t < (D.map (fun row => (row.take (u + 1)).sum)).length := by
    simpa using ht
  split
  case isTrue hpu =>
    rw [take_set_lt _ _ _ _ (show p < u + 1 by omega)]
    have hkey := sum_set_nat (D.map (fun row => (row.take (u + 1)).sum)) t
      ((((D.getD t []).take (u + 1)).set p 1).sum) hlt
    rw [getD_map_rows _ _ _ ht] at hkey
    have hrowlen : p < ((D.getD t []).take (u + 1)).length := by
      simp only [List.length_take]
      omega
    have hrow := sum_set_nat ((D.getD t []).take (u + 1)) p 1 hrowlen
    rw [getD_take_lt _ _ _ (show p < u + 1 by omega), hval] at hrow
    omega
  case isFalse hpu =>
    rw [take_set_ge _ _ _ _ (show u + 1 ≤ p by omega)]
    have hkey := sum_set_nat (D.map (fun row => (row.take (u + 1)).sum)) t
      (((D.getD t []).take (u + 1)).sum) hlt
    rw [getD_map_rows _ _ _ ht] at hkey
    omega

theorem genInv_init (T P : ℕ) : genInv T P (genInit T P) := by
  refine ⟨by simp [genInit], ?_, ?_, ?_⟩
  · intro row hr
    rw [List.eq_of_mem_replicate hr]
    simp
  · intro row hr x hx
    rw [List.eq_of_mem_replicate hr] at hx
    rw [List.eq_of_mem_replicate hx]
    exact Nat.zero_le 1
  · intro u
    rw [unitsUpTo_init]
    simpa [genInit] using card_filter_range_le P u

theorem genStep_inv (T P : ℕ) (g g2 : GenState) (r1 r2 : ℕ)
    (hinv : genInv T P g) (h : genStep T P g r1 r2 = some g2) :
    genInv T P g2 := by
  obtain ⟨hlen, hrowlen, h01, hcard⟩ := hinv
  unfold genStep at h
  split at h
  case isFalse => exact absurd h (by simp)
  case isTrue hne =>
    dsimp only at h
    split at h
    case isFalse => exact absurd h (by simp)
    case isTrue hmP =>
      split at h
      case isFalse => exact absurd h (by simp)
      case isTrue hT =>
        split at h
        case isFalse =>
          cases h
          exact ⟨hlen, hrowlen, h01, hcard⟩
        case isTrue hcell =>
          split at h
          case h_1 => exact absurd h (by simp)
          case h_2 s heq =>
            cases h
            set m := g.available.min' hne with hm
            set p := m + r1 % (P - m) with hpdef
            set t := r2 % T with htdef
            have hpP : p < P := by
              have := Nat.mod_lt r1 (show 0 < P - m by omega)
              omega
            have htT : t < T := Nat.mod_lt r2 hT
            have htlen : t < g.demands.length := by omega
            have hrowmem : g.demands.getD t [] ∈ g.demands := by
              rw [List.getD_eq_getElem _ _ htlen]
              exact List.getElem_mem _
            have hrowP : (g.demands.getD t []).length = P :=
              hrowlen _ hrowmem
            have hsmem : s ∈ g.available.filter (fun a => a ≤ p) :=
              Finset.mem_of_max heq
            have hs_av : s ∈ g.available := (Finset.mem_filter.mp hsmem).1
            have hs_le : s ≤ p := by
              have := (Finset.mem_filter.mp hsmem).2
              simpa using this
            refine ⟨?_, ?_, ?_, ?_⟩
            · simpa using hlen
            · intro row hr
              rcases List.mem_or_eq_of_mem_set hr with hmem | hrow
              · exact hrowlen _ hmem
              · rw [hrow, List.length_set]
                exact hrowP
            · intro row hr x hx
              rcases List.mem_or_eq_of_mem_set hr with hmem | hrow
              · exact h01 _ hmem x hx
              · rw [hrow] at hx
                rcases List.mem_or_eq_of_mem_set hx with hxmem | hx1
                · exact h01 _ hrowmem x hxmem
                · omega
            · intro u
              dsimp only
              rw [unitsUpTo_set g.demands t p u htlen (by omega) hcell,
                Finset.filter_erase]
              by_cases hpu : p ≤ u
              · rw [if_pos hpu]
                have hsu : s ∈ g.available.filter (fun a => a ≤ u) :=
                  Finset.mem_filter.mpr ⟨hs_av, by simpa using (by omega : s ≤ u)⟩
                rw [Finset.card_erase_of_mem hsu]
                have hpos : 0 < (g.available.filter (fun a => a ≤ u)).card :=
                  Finset.card_pos.mpr ⟨s, hsu⟩
                have := hcard u
                omega
              · rw [if_neg hpu]
                have hle : ((g.available.filter (fun a => a ≤ u)).erase s).card ≤
                    (g.available.filter (fun a => a ≤ u)).card :=
                  Finset.card_le_card (Finset.erase_subset _ _)
                have := hcard u
                omega

theorem genRun_aux (T P : ℕ) (draws : List (ℕ × ℕ)) (g0 g : GenState)
    (hinv : genInv T P g0)
    (h : draws.foldlM (fun g r => genStep T P g r.1 r.2) g0 = some g) :
    genInv T P g := by
  induction draws generalizing g0 with
  | nil =>
    rw [List.foldlM_nil] at h
    cases h
    exact hinv
  | cons d ds ih =>
    rw [List.foldlM_cons] at h
    rcases Option.bind_eq_some.mp h with ⟨g1, hg1, hrest⟩
    exact ih g1 (genStep_inv T P g0 g1 d.1 d.2 hinv hg1) hrest

/-- C9: every demand matrix produced by the generator's placement loop
(`generate_demands` together with `PspFeasibility`) has only 0/1
entries and is deadline-feasible: at every period `u` the total demand
units due by `u` fit in the `u + 1` production slots up to `u`, so each
unit can be produced no later than its deadline. -/
theorem c9_generator_feasible (T P : ℕ) (draws : List (ℕ × ℕ)) (g : GenState)
    (h : genRun T P draws = some g) :
    zeroOne g.demands = true ∧ deadlineFeasible g.demands = true ∧
    ∀ u : ℕ, unitsUpTo g.demands u ≤ u + 1 := by
  have hinv := genRun_aux T P draws (genInit T P) g (genInv_init T P) h
  obtain ⟨-, -, h01, hcard⟩ := hinv
  have hall : ∀ u : ℕ, unitsUpTo g.demands u ≤ u + 1 := fun u =>
    le_trans (Nat.le_add_right _ _) (hcard u)
  refine ⟨?_, ?_, hall⟩
  · unfold zeroOne
    rw [List.all_eq_true]
    intro row hr
    rw [List.all_eq_true]
    intro x hx
    exact decide_eq_true (h01 row hr x hx)
  · unfold deadlineFeasible
    rw [List.all_eq_true]
    intro u hu
    exact decide_eq_true (hall u)

theorem c9_generator_feasible_witness :
    genRun 1 2 [(0, 0), (0, 0)] =
      some ((genRun 1 2 [(0, 0), (0, 0)]).getD (genInit 1 2)) ∧
    zeroOne ((genRun 1 2 [(0, 0), (0, 0)]).getD (genInit 1 2)).demands = true ∧
    deadlineFeasible
      ((genRun 1 2 [(0, 0), (0, 0)]).getD (genInit 1 2)).demands = true ∧
    unitsUpTo ((genRun 1 2 [(0, 0), (0, 0)]).getD (genInit 1 2)).demands 1 ≤
      1 + 1 := by
  have h : genRun 1 2 [(0, 0), (0, 0)] =
      some ((genRun 1 2 [(0, 0), (0, 0)]).getD (genInit 1 2)) := rfl
  have hc := c9_generator_feasible 1 2 [(0, 0), (0, 0)]
    ((genRun 1 2 [(0, 0), (0, 0)]).getD (genInit 1 2)) h
  exact ⟨h, hc.1, hc.2.1, hc.2.2 1⟩

/-! ## The k = n round trip -/

theorem filter_eq_range (n i : ℕ) (hi : i < n) :
    (List.range n).filter (fun j => j = i) = [i] := by
  induction n with
  | zero => omega
  | succ n ih =>
    rw [List.range_succ, List.filter_append]
    by_cases hin : i < n
    · rw [ih hin]
      have h2 : (([n] : List ℕ).filter (fun j => j = i)) = [] := by
        apply List.filter_eq_nil_iff.mpr
        intro a ha
        rw [List.mem_singleton] at ha
        subst ha
        simp only [decide_eq_true_eq]
        omega
      rw [h2, List.append_nil]
    · have hni : i = n := by omega
      subst hni
      have h1 : (List.range i).filter (fun j => j = i) = [] := by
        apply List.filter_eq_nil_iff.mpr
        intro a ha
        rw [List.mem_range] at ha
        simp only [decide_eq_true_eq]
        omega
      rw [h1, List.nil_append, List.filter_cons, if_pos (by simp)]
      rfl

theorem filter_flatMap_eq {α β : Type} (l : List α) (f : α → List β) (p : β → Bool) :
    (l.flatMap f).filter p = l.flatMap (fun a => (f a).filter p) := by
  induction l with
  | nil => rfl
  | cons x xs ih => rw [List.flatMap_cons, List.flatMap_cons, List.filter_append, ih]

theorem range_flatMap_single {β : Type} (f : ℕ → List β) (i : ℕ) (v : β) :
    ∀ n, i < n → (∀ a, a < n → f a = if a = i then [v] else []) →
      (List.range n).flatMap f = [v] := by
  intro n
  induction n with
  | zero => intro h; omega
  | succ n ih =>
    intro hi hf
    rw [List.range_succ, List.flatMap_append,
      show ([n] : List ℕ).flatMap f = f n by simp]
    by_cases hin : i < n
    · rw [ih hin (fun a ha => hf a (by omega)), hf n (by omega),
        if_neg (by omega), List.append_nil]
    · have hieq : i = n := by omega
      subst hieq
      rw [hf i (by omega), if_pos rfl]
      have hnil : (List.range i).flatMap f = [] := by
        apply List.flatMap_eq_nil_iff.mpr
        intro a ha
        rw [List.mem_range] at ha
        rw [hf a (by omega), if_neg (by omega)]
      rw [hnil, List.nil_append]

theorem filter_pair_map (a i j : ℕ) (l : List ℕ) :
    ((l.map (fun b => (a, b))).filter (fun q => q.1 = i ∧ q.2 = j)) =
      if a = i then (l.filter (fun b => b = j)).map (fun b => (a, b)) else [] := by
  induction l with
  | nil => by_cases h : a = i <;> simp [h]
  | cons x xs ih =>
    rw [List.map_cons, List.filter_cons]
    by_cases h : a = i
    · subst h
      rw [if_pos rfl, List.filter_cons]
      by_cases hx : x = j
      · subst hx
        rw [if_pos (by simp), if_pos (by simp), List.map_cons, ih, if_pos rfl]
      · rw [if_neg (by simp [hx]), if_neg (by simpa using hx), ih, if_pos rfl]
    · rw [if_neg (by simp [h]), ih, if_neg h, if_neg h]

theorem indexPairs_filter_pair (n i j : ℕ) (hi : i < n) (hj : j < n) :
    (indexPairs n).filter (fun q => q.1 = i ∧ q.2 = j) = [(i, j)] := by
  unfold indexPairs
  rw [filter_flatMap_eq]
  apply range_flatMap_single _ i (i, j) n hi
  intro a ha
  rw [filter_pair_map]
  by_cases hai : a = i
  · subst hai
    rw [if_pos rfl, if_pos rfl, filter_eq_range n j hj]
    rfl
  · rw [if_neg hai, if_neg hai]

theorem clusterItems_singleton (n : ℕ) (membership : List ℕ) (i : ℕ) (hi : i < n)
    (hinj : ∀ a b, a < n → b < n →
      membership.getD a 0 = membership.getD b 0 → a = b) :
    clusterItems n membership (membership.getD i 0) = [i] := by
  unfold clusterItems
  have hcong : (List.range n).filter
      (fun j => decide (membership.getD j 0 = membership.getD i 0)) =
      (List.range n).filter (fun j => decide (j = i)) := by
    apply List.filter_congr
    intro j hj
    have hjn := List.mem_range.1 hj
    exact decide_eq_decide.mpr
      ⟨fun h => hinj j i hjn hi h, fun h => by rw [h]⟩
  rw [hcong]
  exact filter_eq_range n i hi

theorem inj_surj (n : ℕ) (membership : List ℕ)
    (hval : ∀ j ∈ membership, j < n)
    (hinj : ∀ a b, a < n → b < n →
      membership.getD a 0 = membership.getD b 0 → a = b) :
    ∀ a, a < n → ∃ i, i < n ∧ membership.getD i 0 = a := by
  have hmget : ∀ i, i < n → membership.getD i 0 < n := by
    intro i hi
    by_cases hil : i < membership.length
    · rw [List.getD_eq_getElem _ _ hil]
      exact hval _ (List.getElem_mem hil)
    · rw [List.getD_eq_default _ _ (by omega)]
      omega
  have himg : (Finset.range n).image (fun i => membership.getD i 0) =
      Finset.range n := by
    apply Finset.eq_of_subset_of_card_le
    · intro x hx
      rcases Finset.mem_image.1 hx with ⟨i, hi, rfl⟩
      exact Finset.mem_range.2 (hmget i (Finset.mem_range.1 hi))
    · rw [Finset.card_image_of_injOn (fun x hx y hy h =>
        hinj x y (Finset.mem_range.1 (Finset.mem_coe.1 hx))
          (Finset.mem_range.1 (Finset.mem_coe.1 hy)) h), Finset.card_range]
  intro a ha
  have hmem : a ∈ (Finset.range n).image (fun i => membership.getD i 0) := by
    rw [himg]
    exact Finset.mem_range.2 ha
  rcases Finset.mem_image.1 hmem with ⟨i, hi, hie⟩
  exact ⟨i, Finset.mem_range.1 hi, hie⟩

theorem map_getD_range_self (l : List ℕ) :
    (List.range l.length).map (fun t => l.getD t 0) = l := by
  apply List.ext_getElem
  · rw [List.length_map, List.length_range]
  · intro idx h1 h2
    rw [List.getElem_map, List.getElem_range, List.getD_eq_getElem _ _ h2]

theorem sweepAux_id (l : List ℕ) (h01 : ∀ x ∈ l, x ≤ 1) :
    sweepAux l = (l, 0) := by
  induction l with
  | nil => rfl
  | cons c rest ih =>
    have hc := h01 c (List.mem_cons_self _ _)
    have ih2 := ih (fun x hx => h01 x (List.mem_cons_of_mem _ hx))
    rw [sweepAux_cons, ih2]
    dsimp only
    rcases Nat.le_one_iff_eq_zero_or_eq_one.mp hc with rfl | rfl
    · rw [if_neg (by omega)]
    · rw [if_pos (by omega)]

theorem filter_cond_singleton (n i : ℕ) (hi : i < n) (Q : ℕ → Prop)
    [DecidablePred Q] (membership : List ℕ)
    (hinj : ∀ a b, a < n → b < n →
      membership.getD a 0 = membership.getD b 0 → a = b) :
    (List.range n).filter
      (fun j => Q j ∧ membership.getD j 0 = membership.getD i 0) =
      if Q i then [i] else [] := by
  have hcong : (List.range n).filter
      (fun j => decide (Q j ∧ membership.getD j 0 = membership.getD i 0)) =
      (List.range n).filter (fun j => decide (Q j) && decide (j = i)) := by
    apply List.filter_congr
    intro j hj
    have hjn := List.mem_range.1 hj
    rw [Bool.decide_and, decide_eq_decide.mpr
      (⟨fun h => hinj j i hjn hi h, fun h => by rw [h]⟩ :
        (membership.getD j 0 = membership.getD i 0) ↔ (j = i))]
  rw [hcong, ← List.filter_filter, filter_eq_range n i hi, List.filter_cons]
  by_cases hQ : Q i
  · rw [if_pos (decide_eq_true hQ), if_pos hQ]
    rfl
  · rw [if_neg (by simpa using hQ), if_neg hQ]
    rfl

/-- C7 is false as stated: `ex7` is a well-formed feasible instance (0/1
demands, deadline-feasible, total demand within the horizon), yet with
k = n = 2 the construction of the compression panics (out-of-bounds
write in the reverse-count index, modelled by `none`) for both possible
item relabelings, because item 0's demand count equals the horizon — no
meta-instance is built at all, so no round trip takes place. -/
theorem c7_roundtrip_counterexample :
    ex7.nb_types = 2 ∧ zeroOne ex7.demands = true ∧
    deadlineFeasible ex7.demands = true ∧
    totalUnits ex7.demands ≤ ex7.nb_periods ∧
    PspCompression.new (mkPsp ex7) [0, 1] 2 = none ∧
    PspCompression.new (mkPsp ex7) [1, 0] 2 = none := by
  decide

/-- C7 (amended): with k = n, an injective relabeling `membership`, 0/1
demands, a zero changeover diagonal, costs in the `usize` range and
every item's demand count strictly below the horizon, the build
succeeds, the meta-instance reproduces the original stocking costs,
changeover matrix and demand rows exactly up to the relabeling, and
projecting any reachable state is the identity up to the same
relabeling.  (The demand-count bound is necessary: without it the
builder panics, as the counterexample shows.) -/
theorem c7_roundtrip_amended (inst : PspInstance) (membership : List ℕ)
    (hd_len : inst.demands.length = inst.nb_types)
    (hd_rows : ∀ row ∈ inst.demands, row.length = inst.nb_periods)
    (hmemlen : membership.length = inst.nb_types)
    (hmemval : ∀ j ∈ membership, j < inst.nb_types)
    (hinj : ∀ a b, a < inst.nb_types → b < inst.nb_types →
      membership.getD a 0 = membership.getD b 0 → a = b)
    (h01 : zeroOne inst.demands = true)
    (hdiag : ∀ i, i < inst.nb_types →
      (inst.changeover.getD i []).getD i 0 = 0)
    (hsum : ∀ i, i < inst.nb_types →
      (inst.demands.getD i []).sum < inst.nb_periods)
    (hstock : ∀ x ∈ inst.stocking, x ≤ usizeMax)
    (hchange : ∀ row ∈ inst.changeover, ∀ x ∈ row, x ≤ usizeMax) :
    ∃ c, PspCompression.new (mkPsp inst) membership inst.nb_types = some c ∧
      (∀ i, i < inst.nb_types →
        c.meta_problem.stocking.getD (membership.getD i 0) 0 =
          inst.stocking.getD i 0) ∧
      (∀ i j, i < inst.nb_types → j < inst.nb_types →
        (c.meta_problem.changeover.getD (membership.getD i 0) []).getD
          (membership.getD j 0) 0 = (inst.changeover.getD i []).getD j 0) ∧
      (∀ i, i < inst.nb_types →
        c.meta_problem.demands.getD (membership.getD i 0) [] =
          inst.demands.getD i []) ∧
      ∀ s, Reachable (mkPsp inst) s →
        ∃ s2, c.compress s = some s2 ∧ s2.time = s.time ∧
          (s.next = IDLE → s2.next = IDLE) ∧
          (∀ j : ℕ, s.next = Int.ofNat j → j < inst.nb_types →
            s2.next = Int.ofNat (membership.getD j 0)) ∧
          s2.prev_demands.length = inst.nb_types ∧
          ∀ i, i < inst.nb_types →
            s2.prev_demands.getD (membership.getD i 0) 0 =
              s.prev_demands.getD i 0 := by
  set p := mkPsp inst with hp
  have hmget : ∀ i, i < inst.nb_types →
      membership.getD i 0 < inst.nb_types := by
    intro i hi
    rw [List.getD_eq_getElem _ _ (by omega)]
    exact hmemval _ (List.getElem_mem _)
  have hsurj := inj_surj inst.nb_types membership hmemval hinj
  have hsing : ∀ i, i < inst.nb_types →
      clusterItems p.n_items membership (membership.getD i 0) = [i] := by
    intro i hi
    exact clusterItems_singleton inst.nb_types membership i hi hinj
  have hz : ∀ row ∈ inst.demands, ∀ x ∈ row, x ≤ 1 := by
    unfold zeroOne at h01
    rw [List.all_eq_true] at h01
    intro row hr x hx
    have := h01 row hr
    rw [List.all_eq_true] at this
    simpa using this x hx
  have h01' : ∀ i, ∀ x ∈ inst.demands.getD i [], x ≤ 1 := by
    intro i x hx
    by_cases hi : i < inst.demands.length
    · refine hz _ ?_ x hx
      rw [List.getD_eq_getElem _ _ hi]
      exact List.getElem_mem hi
    · rw [List.getD_eq_default _ _ (by omega)] at hx
      exact absurd hx (List.not_mem_nil x)
  have hrowlen : ∀ i, i < inst.nb_types →
      (p.demands.getD i []).length = p.horizon := by
    intro i hi
    have hi' : i < p.demands.length := by
      show i < inst.demands.length
      omega
    rw [List.getD_eq_getElem _ _ hi']
    exact hd_rows _ (List.getElem_mem hi')
  have hdemrow : ∀ i, i < inst.nb_types →
      (sweepAux (metaInput p membership (membership.getD i 0))).1 =
        p.demands.getD i [] := by
    intro i hi
    have hmi : metaInput p membership (membership.getD i 0) =
        p.demands.getD i [] := by
      unfold metaInput
      have hpt : ∀ t ∈ List.range p.horizon,
          memberDemandAt p membership (membership.getD i 0) t =
            (p.demands.getD i []).getD t 0 := by
        intro t _
        rw [memberDemandAt_eq, hsing i hi]
        simp
      rw [List.map_congr_left hpt, ← hrowlen i hi, map_getD_range_self]
    rw [hmi, sweepAux_id (p.demands.getD i []) (fun x hx => h01' i x hx)]
  have hcluster : ∀ a, a < inst.nb_types →
      clusterUnits p membership a 0 < p.horizon := by
    intro a ha
    rcases hsurj a ha with ⟨i, hi, hie⟩
    rw [← hie]
    unfold clusterUnits
    rw [hsing i hi, List.map_cons, List.map_nil, List.sum_cons, List.sum_nil,
      List.drop_zero]
    show (inst.demands.getD i []).sum + 0 < inst.nb_periods
    have := hsum i hi
    omega
  rcases new_some p membership inst.nb_types hd_rows hcluster with
    ⟨c, hnew, hprob, hmemb, hkn, hkh, hdm, hst, hch, hWlen, hWprops⟩
  have hnonempty : ∀ a, a < inst.nb_types →
      clusterItems p.n_items membership a ≠ [] := by
    intro a ha
    rcases hsurj a ha with ⟨i, hi, hie⟩
    rw [← hie, hsing i hi]
    exact List.cons_ne_nil i []
  have hc2 := c2_meta_costs p membership inst.nb_types hmemlen hnonempty
    hstock hchange
  refine ⟨c, hnew, ?_, ?_, ?_, ?_⟩
  · intro i hi
    have ha := hmget i hi
    have h1 := hc2.1 _ ha
    rw [show memberStockings p membership (membership.getD i 0) =
        [p.stocking.getD i 0] from by
      unfold memberStockings
      rw [hsing i hi]
      rfl] at h1
    rw [hst]
    exact (Option.some.inj h1).symm
  · intro i j hi hj
    rw [hch]
    by_cases hij : i = j
    · subst hij
      rw [hc2.2.2 _ (hmget i hi), hdiag i hi]
    · have hab : membership.getD i 0 ≠ membership.getD j 0 :=
        fun hc => hij (hinj i j hi hj hc)
      have h1 := hc2.2.1 _ _ (hmget i hi) (hmget j hj) hab
      have hcc : crossCosts p membership (membership.getD i 0)
          (membership.getD j 0) = [(p.changeover.getD i []).getD j 0] := by
        unfold crossCosts
        have hcong : (indexPairs p.n_items).filter
            (fun q => membership.getD q.1 0 = membership.getD i 0 ∧
              membership.getD q.2 0 = membership.getD j 0) =
            (indexPairs p.n_items).filter (fun q => q.1 = i ∧ q.2 = j) := by
          apply List.filter_congr
          intro q hq
          have hqmem := (mem_indexPairs p.n_items q.1 q.2).1 hq
          exact decide_eq_decide.mpr
            ⟨fun hx => ⟨hinj _ _ hqmem.1 hi hx.1, hinj _ _ hqmem.2 hj hx.2⟩,
             fun hx => by rw [hx.1, hx.2]; exact ⟨rfl, rfl⟩⟩
        rw [hcong, indexPairs_filter_pair p.n_items i j hi hj]
        rfl
      rw [hcc] at h1
      exact (Option.some.inj h1).symm
  · intro i hi
    rw [hdm, computeMetaDemands_getD p membership inst.nb_types _ (hmget i hi),
      hdemrow i hi]
    rfl
  · intro s hreach
    rcases reachable_inv p s hreach with ⟨hslen, hnextinv, hptr⟩
    have hremlen : p.rem_demands.length = inst.nb_types := by
      show (computeRemDemands inst.demands).length = inst.nb_types
      unfold computeRemDemands
      rw [List.length_map]
      exact hd_len
    rcases metaRemCounts_some c s
      (by rw [hmemb, hslen, hmemlen]; exact le_refl _)
      (by rw [hmemb, hkn]; exact hmemval)
      (by
        intro i' hi' hp0
        constructor
        · rw [hprob]
          show i' < p.rem_demands.length
          rw [hremlen]
          rw [hslen] at hi'
          exact hi'
        · rw [hprob]
          show (s.prev_demands.getD i' 0).toNat < (p.rem_demands.getD i' []).length
          have hi2 : i' < p.demands.length := by
            show i' < inst.demands.length
            rw [hd_len]
            rw [hslen] at hi'
            exact hi'
          rw [show p.rem_demands = computeRemDemands p.demands from rfl,
            computeRemDemands_getD p.demands i' hi2, List.length_map,
            List.length_range]
          rcases hptr i' (by rw [← hslen]; exact hi') with hneg | ⟨_, hlt, _⟩
          · rw [hneg] at hp0
            exact absurd hp0 (by norm_num)
          · exact hlt) with ⟨r, hrsome, hrlen, hrval⟩
    have hbound : ∀ a, a < inst.nb_types →
        r.getD a 0 ≤ clusterUnits p membership a 0 := by
      intro a ha
      rw [hrval a (by rw [hkn]; exact ha), metaRem_filter_eq]
      exact metaRem_le_clusterUnits p membership s c hprob hmemb rfl hslen a
    rcases compress_some c s r hrsome
      (by
        intro a ha
        rw [hrlen, hkn] at ha
        rw [(hWprops a ha).1]
        exact lt_of_le_of_lt (hbound a ha) (hcluster a ha))
      (by
        rcases hnextinv with hidle | ⟨h0, hlt⟩
        · exact Or.inl hidle
        · right
          rw [hmemb, hmemlen]
          exact ⟨h0, hlt⟩) with
      ⟨s2, hcompress, hs2time, hs2len, hs2iff, hs2lab, hgets⟩
    refine ⟨s2, hcompress, hs2time, fun hidle => hs2iff.mpr hidle, ?_,
      by rw [hs2len, hrlen, hkn], ?_⟩
    · intro j hj hjn
      have hlab := hs2lab j hj (by rw [hmemb, hmemlen]; exact hjn)
      rw [hmemb] at hlab
      exact hlab
    · intro i hi
      have ha := hmget i hi
      rw [hgets (membership.getD i 0) (by rw [hrlen, hkn]; exact ha)]
      have hrv := hrval (membership.getD i 0) (by rw [hkn]; exact ha)
      rw [metaRem_filter_eq, hmemb, hslen] at hrv
      have hsfilt := filter_cond_singleton inst.nb_types i hi
        (fun j => 0 ≤ s.prev_demands.getD j 0) membership hinj
      rw [show p.n_items = inst.nb_types from rfl] at hrv
      rw [hsfilt] at hrv
      rcases hptr i hi with hneg | ⟨h0, hlt, hdpos⟩
      · have hcond : ¬(0 ≤ s.prev_demands.getD i 0) := by
          rw [hneg]
          norm_num
        rw [if_neg hcond, List.map_nil, List.sum_nil] at hrv
        rw [hrv, (hWprops _ ha).2.2.2, hneg]
      · rw [if_pos h0, List.map_cons, List.map_nil, List.sum_cons,
          List.sum_nil, Nat.add_zero, hprob] at hrv
        have hi2 : i < p.demands.length := by
          show i < inst.demands.length
          rw [hd_len]
          exact hi
        rw [show p.rem_demands = computeRemDemands p.demands from rfl,
          computeRemDemands_getD p.demands i hi2, remRow_getD] at hrv
        have hW3 := (hWprops _ ha).2.2.1 (s.prev_demands.getD i 0).toNat
          (by rw [← hrowlen i hi]; exact hlt)
          (by rw [hdemrow i hi]; exact hdpos)
        rw [hdemrow i hi] at hW3
        rw [hrv, hW3]
        show (((s.prev_demands.getD i 0).toNat : ℕ) : ℤ) =
          s.prev_demands.getD i 0
        exact Int.toNat_of_nonneg h0

theorem c7_roundtrip_amended_witness :
    ∃ c, PspCompression.new (mkPsp exW) [0, 1] exW.nb_types = some c ∧
      (∀ i, i < exW.nb_types →
        c.meta_problem.stocking.getD (([0, 1] : List ℕ).getD i 0) 0 =
          exW.stocking.getD i 0) ∧
      (∀ i j, i < exW.nb_types → j < exW.nb_types →
        (c.meta_problem.changeover.getD (([0, 1] : List ℕ).getD i 0) []).getD
          (([0, 1] : List ℕ).getD j 0) 0 = (exW.changeover.getD i []).getD j 0) ∧
      (∀ i, i < exW.nb_types →
        c.meta_problem.demands.getD (([0, 1] : List ℕ).getD i 0) [] =
          exW.demands.getD i []) ∧
      ∀ s, Reachable (mkPsp exW) s →
        ∃ s2, c.compress s = some s2 ∧ s2.time = s.time ∧
          (s.next = IDLE → s2.next = IDLE) ∧
          (∀ j : ℕ, s.next = Int.ofNat j → j < exW.nb_types →
            s2.next = Int.ofNat (([0, 1] : List ℕ).getD j 0)) ∧
          s2.prev_demands.length = exW.nb_types ∧
          ∀ i, i < exW.nb_types →
            s2.prev_demands.getD (([0, 1] : List ℕ).getD i 0) 0 =
              s.prev_demands.getD i 0 :=
  c7_roundtrip_amended exW [0, 1] (by decide) (by decide) (by decide)
    (by decide)
    (by
      have h2 : ∀ a, a < exW.nb_types → ∀ b, b < exW.nb_types →
          ([0, 1] : List ℕ).getD a 0 = ([0, 1] : List ℕ).getD b 0 → a = b := by
        decide
      exact fun a b ha hb h => h2 a ha b hb h)
    (by decide) (by decide) (by decide) (by decide) (by decide)
